import Mathlib

/-!
# tfpdiff: the value normalizer and the resource-change extractor

A shallow embedding of `cmd/tfpdiff/main.go`.

* `Value` is the dynamic value a Go `any` holds in this program.
* `Libs` collects the library functions the program calls (`encoding/json`, `gopkg.in/yaml.v3`,
  `fmt`, `jd`); they are parameters of the embedding, their code is not part of the program.
* `Globals` is the package-level state (`spaces`, `turnOnIndentLogging`) together with what has
  been written to standard output and to the logger.
* `parseAsJSON` and `processResourceChange` follow the Go functions of the same name statement by
  statement.  Go's recursion has no depth cap, so `parseAsJSON` takes a fuel argument: `none` means
  the recursion was still running when the fuel ran out.
* `main` is the Go function of that name from the point where the plan has been read and decoded:
  the loop over the resource changes (`rangeResourceChanges`) and the printed `report`.
-/

set_option maxRecDepth 10000

namespace Tfpdiff

/-- The dynamic values of Go's `any` as the program meets them: `nil`, `bool`, `float64`,
`string`, `[]interface{}`, `map[string]any` (`map none` is the nil map, `map (some es)` a map with
entries `es`, listed in one iteration order), `map[interface{}]interface{}` (`anyMap`, what the
YAML decoder makes of a nested mapping with a key that is not a string; its keys are values), and
`other` for a value of any other dynamic type (an `int` or a `time.Time` from the YAML decoder,
for example). -/
inductive Value where
  | null : Value
  | bool (b : Bool) : Value
  | number (x : Rat) : Value
  | str (s : String) : Value
  | seq (xs : List Value) : Value
  | map (m : Option (List (String × Value))) : Value
  | anyMap (entries : List (Value × Value)) : Value
  | other (tag : Nat) : Value

/-- A Go `map[string]any`: `none` is the nil map. -/
abbrev GoMap := Option (List (String × Value))

/-- The library functions called by the program.  An `Except.error` carries the text of the Go
error. `yamlUnmarshal` is `yaml.Unmarshal` into a `map[string]any` target that starts nil: on
success it yields the target afterwards, which is still nil when the document was empty. -/
structure Libs where
  jsonValid : String → Bool
  jsonUnmarshal : String → Except String Value
  yamlUnmarshal : String → Except String GoMap
  jsonMarshal : Value → Except String String
  fmtV : Value → String
  Node : Type
  readJsonString : String → Except String Node
  diffRender : Node → Node → Bool → String

/-- Package-level variables and the output written so far. -/
structure Globals where
  spaces : Int
  turnOnIndentLogging : Bool
  stdout : List String
  logged : List String

/-- The state the program starts in: `spaces = 0`, `turnOnIndentLogging = false`. -/
def Globals.initial : Globals :=
  { spaces := 0, turnOnIndentLogging := false, stdout := [], logged := [] }

/-- Go's `int` arithmetic wraps around (64-bit two's complement). -/
def wrapInt (x : Int) : Int := (x + 2 ^ 63) % 2 ^ 64 - 2 ^ 63

/-- `for i := 0; i < spaces*2; i++ { if turnOnIndentLogging { fmt.Print(" ") } }`. -/
def printIndent (g : Globals) : Globals :=
  if g.turnOnIndentLogging then
    { g with stdout := g.stdout ++ List.replicate (wrapInt (g.spaces * 2)).toNat " " }
  else g

/-- The statements of `parseAsJSON` before the type switch: the indented trace of the visited
value, then `spaces++`. -/
def enter (d : Libs) (value : Value) (g : Globals) : Globals :=
  let g1 := printIndent g
  let g2 := if g1.turnOnIndentLogging then { g1 with stdout := g1.stdout ++ [d.fmtV value ++ "\n"] }
    else g1
  { g2 with spaces := wrapInt (g2.spaces + 1) }

/-- The deferred function of `parseAsJSON`: `spaces--`, then the indented closing trace. -/
def deferred (g : Globals) : Globals :=
  let g1 := printIndent { g with spaces := wrapInt (g.spaces - 1) }
  if g1.turnOnIndentLogging then { g1 with stdout := g1.stdout ++ ["done with this inline\n"] }
  else g1

/-- Append one message to the logger's output. -/
def logPrintf (msg : String) (g : Globals) : Globals :=
  { g with logged := g.logged ++ [msg] }

/-- `for _, s := range val { processedSlice = append(processedSlice, f(s)) }`. -/
def rangeSlice (f : Value → Globals → Option (Value × Globals)) :
    List Value → Globals → Option (List Value × Globals)
  | [], g => some ([], g)
  | s :: rest, g =>
    match f s g with
    | none => none
    | some (r, g1) =>
      match rangeSlice f rest g1 with
      | none => none
      | some (rs, g2) => some (r :: rs, g2)

/-- `for k, v := range val { result[k] = f(v) }` into a fresh map: the keys of a Go map are
pairwise distinct, so every entry of `val` yields one entry of `result` under the same key. -/
def rangeMap (f : Value → Globals → Option (Value × Globals)) :
    List (String × Value) → Globals → Option (List (String × Value) × Globals)
  | [], g => some ([], g)
  | (k, v) :: rest, g =>
    match f v g with
    | none => none
    | some (r, g1) =>
      match rangeMap f rest g1 with
      | none => none
      | some (rs, g2) => some ((k, r) :: rs, g2)

/-- The function `parseAsJSON` of `main.go`.  The first clause is the model running out of fuel. -/
def parseAsJSON (d : Libs) : Nat → Value → Globals → Option (Value × Globals)
  | 0, _, _ => none
  | fuel + 1, value, g =>
    let g0 := enter d value g
    let body : Option (Value × Globals) :=
      match value with
      | .map val =>
        match rangeMap (parseAsJSON d fuel) (val.getD []) g0 with
        | none => none
        | some (result, g1) => some (.map (some result), g1)
      | .str val =>
        if d.jsonValid val then
          match d.jsonUnmarshal val with
          | .error _ => some (.str val, logPrintf ("Error unmarshalling JSON: " ++ val ++ "\n") g0)
          | .ok parsedStrAsJSON => parseAsJSON d fuel parsedStrAsJSON g0
        else
          match d.yamlUnmarshal val with
          | .error _ => some (.str val, g0)
          | .ok parsedStrAsYAML => parseAsJSON d fuel (.map parsedStrAsYAML) g0
      | .seq val =>
        match rangeSlice (parseAsJSON d fuel) val g0 with
        | none => none
        | some (processedSlice, g1) => some (.seq processedSlice, g1)
      | val => some (val, g0)
    match body with
    | none => none
    | some (r, g1) => some (r, deferred g1)

/-- The Go struct `Change`. -/
structure Change where
  Actions : List String
  Before : GoMap
  After : GoMap

/-- The Go struct `ResourceChange` (its field `Type` is spelled `Typ`, `Type` being reserved). -/
structure ResourceChange where
  Address : String
  Typ : String
  Name : String
  Change : Change

/-- The Go struct `ProcessedResource`. -/
structure ProcessedResource where
  Address : String
  Operation : String
  Before : GoMap
  After : GoMap
  Diff : String

/-- The zero value `ProcessedResource{}`. -/
def ProcessedResource.zero : ProcessedResource :=
  { Address := "", Operation := "", Before := none, After := none, Diff := "" }

/-- The type assertion `v.(map[string]any)`: `none` is the run-time panic. -/
def assertMap : Value → Option GoMap
  | .map m => some m
  | _ => none

/-- How a call of `processResourceChange` ends: it returns its pair, or it panics. -/
inductive Completion where
  | returned (pr : ProcessedResource) (ok : Bool) : Completion
  | panicked : Completion

/-- The function `processResourceChange` of `main.go`; `color` is the value of the `-c` flag. -/
def processResourceChange (d : Libs) (color : Bool) (fuel : Nat) (resourceChange : ResourceChange)
    (g : Globals) : Option (Completion × Globals) :=
  if resourceChange.Change.Actions.length = 0 ∨
      resourceChange.Change.Actions.head? = some "no-op" then
    some (.returned ProcessedResource.zero false, g)
  else
    match parseAsJSON d fuel (.map resourceChange.Change.Before) g with
    | none => none
    | some (before, g1) =>
      match parseAsJSON d fuel (.map resourceChange.Change.After) g1 with
      | none => none
      | some (after, g2) =>
        match d.jsonMarshal before with
        | .error err =>
          some (.returned ProcessedResource.zero false,
            logPrintf ("Error marshalling before state: " ++ err ++ "\n") g2)
        | .ok beforeB =>
          match d.jsonMarshal after with
          | .error err =>
            some (.returned ProcessedResource.zero false,
              logPrintf ("Error marshalling after state: " ++ err ++ "\n") g2)
          | .ok afterB =>
            match d.readJsonString beforeB with
            | .error err =>
              some (.returned ProcessedResource.zero false,
                logPrintf ("Error parsing before state: " ++ err ++ "\n") g2)
            | .ok beforeNode =>
              match d.readJsonString afterB with
              | .error err =>
                some (.returned ProcessedResource.zero false,
                  logPrintf ("Error parsing after state: " ++ err ++ "\n") g2)
              | .ok afterNode =>
                let diff := d.diffRender beforeNode afterNode color
                match assertMap before, assertMap after with
                | some b, some a =>
                  some (.returned
                    { Address := resourceChange.Address
                      Operation := resourceChange.Change.Actions.headD ""
                      Before := b
                      After := a
                      Diff := diff } true, g2)
                | _, _ => some (.panicked, g2)

/-- A small stand-in for the libraries, agreeing with `encoding/json` and `yaml.v3` on the
handful of strings it knows: five JSON texts (one of them, `1e999`, valid but outside the range
of `float64`), the empty YAML document, one YAML mapping; every other string is neither valid
JSON nor a YAML mapping. -/
def sampleLibs : Libs where
  jsonValid s :=
    s == "[1,2,3]" || s == "\x7b\"b\": \"1\"\x7d" || s == "1" || s == "5" || s == "1e999"
  jsonUnmarshal s :=
    if s = "[1,2,3]" then .ok (.seq [.number 1, .number 2, .number 3])
    else if s = "\x7b\"b\": \"1\"\x7d" then .ok (.map (some [("b", .str "1")]))
    else if s = "1" then .ok (.number 1)
    else if s = "5" then .ok (.number 5)
    else .error "json: cannot unmarshal"
  yamlUnmarshal s :=
    if s = "" then .ok none
    else if s = "k: v" then .ok (some [("k", .str "v")])
    else .error "yaml: unmarshal errors"
  jsonMarshal _ := .ok "null"
  fmtV _ := "value"
  Node := String
  readJsonString s := .ok s
  diffRender a b _ := if a = b then "" else "@ []\n- " ++ a ++ "\n+ " ++ b ++ "\n"

/-- The call `parseAsJSON(v)` returns `r`: some amount of fuel lets the model finish with `r`,
from some state of the package variables. -/
def Returns (d : Libs) (v r : Value) : Prop :=
  ∃ fuel g g', parseAsJSON d fuel v g = some (r, g')

/-- The string `t` is a string leaf of `v`: it sits at the root, or is reached from the root
through mapping values and sequence elements, the positions `parseAsJSON` visits (mapping keys are
not leaves, and neither is anything inside a `map[interface{}]interface{}`, which `parseAsJSON`
returns as it is). -/
inductive Leaf : Value → String → Prop where
  | root (t : String) : Leaf (.str t) t
  | elem {xs : List Value} {x : Value} {t : String} (hx : x ∈ xs) (h : Leaf x t) : Leaf (.seq xs) t
  | entry {es : List (String × Value)} {k : String} {x : Value} {t : String}
      (hx : (k, x) ∈ es) (h : Leaf x t) : Leaf (.map (some es)) t

/-- The decoders peel a layer off: every string leaf of what the JSON decoder or the YAML-mapping
decoder makes of a string is strictly shorter than that string. -/
def Shrinks (d : Libs) : Prop :=
  (∀ s v, d.jsonValid s = true → d.jsonUnmarshal s = .ok v →
      ∀ t, Leaf v t → t.length < s.length) ∧
  (∀ s m, d.jsonValid s = false → d.yamlUnmarshal s = .ok m →
      ∀ t, Leaf (.map m) t → t.length < s.length)

/-- One decoding step of `parseAsJSON` at a string: `s` is valid JSON and decodes to `w`, or it
is not valid JSON and the YAML decoder reads it into the mapping `w`. -/
inductive Decodes (d : Libs) : String → Value → Prop where
  | json {s : String} {w : Value} (hv : d.jsonValid s = true) (hu : d.jsonUnmarshal s = .ok w) :
      Decodes d s w
  | yaml {s : String} {m : GoMap} (hv : d.jsonValid s = false)
      (hu : d.yamlUnmarshal s = .ok m) : Decodes d s (.map m)

/-- The value `v` holds `k` embedded-encoding layers: a string leaf of `v` decodes to a value that
holds `k - 1` layers, and so on down. -/
inductive Layers (d : Libs) : Value → Nat → Prop where
  | zero (v : Value) : Layers d v 0
  | succ {v w : Value} {s : String} {k : Nat} (hl : Leaf v s) (hd : Decodes d s w)
      (h : Layers d w k) : Layers d v (k + 1)

/-- The Go struct `TerraformPlan`. -/
structure TerraformPlan where
  ResourceChanges : List ResourceChange

/-- How the loop over the resource changes ends: with the list `processedResources`, or in the
panic of a call of `processResourceChange`. -/
inductive LoopResult where
  | completed (processedResources : List ProcessedResource) : LoopResult
  | panicked : LoopResult

/-- The loop of `main` over `tfPlan.ResourceChanges` (lines 84 to 92); the second argument is
`processedResources` as built so far. -/
def rangeResourceChanges (d : Libs) (color : Bool) (fuel : Nat) :
    List ResourceChange → List ProcessedResource → Globals → Option (LoopResult × Globals)
  | [], processedResources, g => some (.completed processedResources, g)
  | rc :: rest, processedResources, g =>
    match processResourceChange d color fuel rc g with
    | none => none
    | some (.panicked, g1) => some (.panicked, g1)
    | some (.returned processedResource ok, g1) =>
      if ok then
        rangeResourceChanges d color fuel rest (processedResources ++ [processedResource]) g1
      else
        rangeResourceChanges d color fuel rest processedResources g1

/-- The block printed for each processed resource (lines 98 to 107), `i` being the index of the
first one. -/
def printChanges : Nat → List ProcessedResource → List String
  | _, [] => []
  | i, pr :: rest =>
    ["#########################################\n",
      toString (i + 1) ++ ". Change (" ++ pr.Address ++ ")\n",
      "Address: " ++ pr.Address ++ "\n",
      "Operation: " ++ pr.Operation ++ "\n",
      "Diff:\n",
      "\n",
      pr.Diff ++ "\n",
      "- - - - - - - - - - - - - - - - - - - - -\n"] ++ printChanges (i + 1) rest

/-- What `main` prints once the loop is over (lines 94 to 109). -/
def report (processedResources : List ProcessedResource) : List String :=
  (if processedResources.length = 0 then ["No changes detected\n"]
    else (toString processedResources.length ++ " changes detected:\n\n") ::
      printChanges 0 processedResources) ++ ["Done\n"]

/-- The function `main` of `main.go` from line 84 on, the plan having been read and decoded into
`tfPlan`. -/
def main (d : Libs) (color : Bool) (fuel : Nat) (tfPlan : TerraformPlan) (g : Globals) :
    Option (LoopResult × Globals) :=
  match rangeResourceChanges d color fuel tfPlan.ResourceChanges [] g with
  | none => none
  | some (.panicked, g1) => some (.panicked, g1)
  | some (.completed processedResources, g1) =>
    some (.completed processedResources,
      { g1 with stdout := g1.stdout ++ report processedResources })

/-- The sample libraries with a serializer that knows the empty object and the object with the
one field `x` holding the number 5, and rejects every other value, as `json.Marshal` rejects a
value it does not support; the YAML decoder also reads `a: .nan`, as the mapping whose key `a`
holds the float NaN (`other 0` here), a value `json.Marshal` does not support. -/
def planLibs : Libs :=
  { sampleLibs with
    yamlUnmarshal := fun s =>
      if s = "a: .nan" then .ok (some [("a", .other 0)]) else sampleLibs.yamlUnmarshal s
    jsonMarshal := fun v =>
      match v with
      | .map (some []) => .ok "\x7b\x7d"
      | .map (some [("x", .number x)]) =>
        if x = 5 then .ok "\x7b\"x\":5\x7d" else .error "json: unsupported value"
      | _ => .error "json: unsupported value" }

/-- An update whose after state holds a YAML text that decodes to a value `json.Marshal`
rejects. -/
def nanChange : ResourceChange :=
  { Address := "aws_instance.bad", Typ := "aws_instance", Name := "bad",
    Change := { Actions := ["update"], Before := none, After := some [("cfg", .str "a: .nan")] } }

/-- The create change of the end-to-end scenario: actions `create`, no before state, after state
with the field `x` holding the text `5`. -/
def createChange : ResourceChange :=
  { Address := "aws_instance.web", Typ := "aws_instance", Name := "web",
    Change := { Actions := ["create"], Before := none, After := some [("x", .str "5")] } }

/-- The no-op change of the end-to-end scenario. -/
def noopChange : ResourceChange :=
  { Address := "aws_instance.db", Typ := "aws_instance", Name := "db",
    Change := { Actions := ["no-op"], Before := some [("x", .str "5")],
                After := some [("x", .str "5")] } }

/-- The record expected for `createChange`, with the diff text as the parameter. -/
def createRecord (diff : String) : ProcessedResource :=
  { Address := "aws_instance.web", Operation := "create", Before := some [],
    After := some [("x", .number 5)], Diff := diff }

/-- The string `t` occurs in `v` as the root, as a mapping value or as a sequence element: like
`Leaf`, and also through the values of a `map[interface{}]interface{}`, which `parseAsJSON` does
not enter. -/
inductive Occurs : Value → String → Prop where
  | root (t : String) : Occurs (.str t) t
  | elem {xs : List Value} {x : Value} {t : String} (hx : x ∈ xs) (h : Occurs x t) :
      Occurs (.seq xs) t
  | entry {es : List (String × Value)} {k : String} {x : Value} {t : String}
      (hx : (k, x) ∈ es) (h : Occurs x t) : Occurs (.map (some es)) t
  | anyEntry {es : List (Value × Value)} {k x : Value} {t : String}
      (hx : (k, x) ∈ es) (h : Occurs x t) : Occurs (.anyMap es) t

/-- The sample libraries with a YAML decoder that also reads the two-line document with the key
`a` over the nested entry `1: "[1,2,3]"`, as `yaml.v3` does: the nested mapping has a key that is
not a string, so it comes as a `map[interface{}]interface{}`, with the `int` key 1 (`other 1`
here) and the string `[1,2,3]` as its value. -/
def nestedLibs : Libs :=
  { sampleLibs with
    yamlUnmarshal := fun s =>
      if s = "a:\n  1: \"[1,2,3]\"" then .ok (some [("a", .anyMap [(.other 1, .str "[1,2,3]")])])
      else sampleLibs.yamlUnmarshal s }

/-- A value of Go's `int`. -/
def InRange (x : Int) : Prop := -2 ^ 63 ≤ x ∧ x < 2 ^ 63

/-- The calls made during a call: `Visits d fuel v g k w h` says that the call `parseAsJSON(v)`
started in state `g` with `fuel` starts, `k` levels of recursion further down, the call
`parseAsJSON(w)` in state `h`. -/
inductive Visits (d : Libs) : Nat → Value → Globals → Nat → Value → Globals → Prop where
  | root (fuel : Nat) (v : Value) (g : Globals) : Visits d fuel v g 0 v g
  | json {fuel : Nat} {s : String} {w : Value} {g : Globals} {k : Nat} {x : Value} {h : Globals}
      (hv : d.jsonValid s = true) (hu : d.jsonUnmarshal s = .ok w)
      (hc : Visits d fuel w (enter d (.str s) g) k x h) :
      Visits d (fuel + 1) (.str s) g (k + 1) x h
  | yaml {fuel : Nat} {s : String} {m : GoMap} {g : Globals} {k : Nat} {x : Value} {h : Globals}
      (hv : d.jsonValid s = false) (hu : d.yamlUnmarshal s = .ok m)
      (hc : Visits d fuel (.map m) (enter d (.str s) g) k x h) :
      Visits d (fuel + 1) (.str s) g (k + 1) x h
  | elem {fuel : Nat} {pre post rs : List Value} {y : Value} {g g1 : Globals} {k : Nat}
      {x : Value} {h : Globals}
      (hp : rangeSlice (parseAsJSON d fuel) pre (enter d (.seq (pre ++ y :: post)) g) =
        some (rs, g1))
      (hc : Visits d fuel y g1 k x h) :
      Visits d (fuel + 1) (.seq (pre ++ y :: post)) g (k + 1) x h
  | entry {fuel : Nat} {m : GoMap} {pre post rs : List (String × Value)} {key : String}
      {y : Value} {g g1 : Globals} {k : Nat} {x : Value} {h : Globals}
      (hm : m.getD [] = pre ++ (key, y) :: post)
      (hp : rangeMap (parseAsJSON d fuel) pre (enter d (.map m) g) = some (rs, g1))
      (hc : Visits d fuel y g1 k x h) :
      Visits d (fuel + 1) (.map m) g (k + 1) x h

/-! ## Unfolding `parseAsJSON` one step -/

theorem parseAsJSON_zero (d : Libs) (v : Value) (g : Globals) : parseAsJSON d 0 v g = none := rfl

theorem parseAsJSON_map (d : Libs) (n : Nat) (m : GoMap) (g : Globals) :
    parseAsJSON d (n + 1) (.map m) g =
      (rangeMap (parseAsJSON d n) (m.getD []) (enter d (.map m) g)).map
        (fun p => (Value.map (some p.1), deferred p.2)) := by
  simp only [parseAsJSON]
  cases rangeMap (parseAsJSON d n) (m.getD []) (enter d (.map m) g) <;> rfl

theorem parseAsJSON_seq (d : Libs) (n : Nat) (xs : List Value) (g : Globals) :
    parseAsJSON d (n + 1) (.seq xs) g =
      (rangeSlice (parseAsJSON d n) xs (enter d (.seq xs) g)).map
        (fun p => (Value.seq p.1, deferred p.2)) := by
  simp only [parseAsJSON]
  cases rangeSlice (parseAsJSON d n) xs (enter d (.seq xs) g) <;> rfl

theorem parseAsJSON_null (d : Libs) (n : Nat) (g : Globals) :
    parseAsJSON d (n + 1) .null g = some (.null, deferred (enter d .null g)) := rfl

theorem parseAsJSON_bool (d : Libs) (n : Nat) (b : Bool) (g : Globals) :
    parseAsJSON d (n + 1) (.bool b) g = some (.bool b, deferred (enter d (.bool b) g)) := rfl

theorem parseAsJSON_number (d : Libs) (n : Nat) (x : Rat) (g : Globals) :
    parseAsJSON d (n + 1) (.number x) g =
      some (.number x, deferred (enter d (.number x) g)) := rfl

theorem parseAsJSON_anyMap (d : Libs) (n : Nat) (es : List (Value × Value)) (g : Globals) :
    parseAsJSON d (n + 1) (.anyMap es) g =
      some (.anyMap es, deferred (enter d (.anyMap es) g)) := rfl

theorem parseAsJSON_other (d : Libs) (n : Nat) (t : Nat) (g : Globals) :
    parseAsJSON d (n + 1) (.other t) g = some (.other t, deferred (enter d (.other t) g)) := rfl

theorem parseAsJSON_str_json (d : Libs) (n : Nat) (s : String) (v : Value) (g : Globals)
    (hv : d.jsonValid s = true) (hu : d.jsonUnmarshal s = .ok v) :
    parseAsJSON d (n + 1) (.str s) g =
      (parseAsJSON d n v (enter d (.str s) g)).map (fun p => (p.1, deferred p.2)) := by
  simp only [parseAsJSON, hv, hu, if_true]
  cases parseAsJSON d n v (enter d (.str s) g) <;> rfl

theorem parseAsJSON_str_json_err (d : Libs) (n : Nat) (s e : String) (g : Globals)
    (hv : d.jsonValid s = true) (hu : d.jsonUnmarshal s = .error e) :
    parseAsJSON d (n + 1) (.str s) g =
      some (.str s, deferred (logPrintf ("Error unmarshalling JSON: " ++ s ++ "\n")
        (enter d (.str s) g))) := by
  simp only [parseAsJSON, hv, hu, if_true]

theorem parseAsJSON_str_yaml (d : Libs) (n : Nat) (s : String) (m : GoMap) (g : Globals)
    (hv : d.jsonValid s = false) (hu : d.yamlUnmarshal s = .ok m) :
    parseAsJSON d (n + 1) (.str s) g =
      (parseAsJSON d n (.map m) (enter d (.str s) g)).map (fun p => (p.1, deferred p.2)) := by
  simp only [parseAsJSON, hv, hu]
  cases parseAsJSON d n (.map m) (enter d (.str s) g) <;> rfl

theorem parseAsJSON_str_yaml_err (d : Libs) (n : Nat) (s e : String) (g : Globals)
    (hv : d.jsonValid s = false) (hu : d.yamlUnmarshal s = .error e) :
    parseAsJSON d (n + 1) (.str s) g = some (.str s, deferred (enter d (.str s) g)) := by
  simp only [parseAsJSON, hv, hu]
  rfl

/-! ## The two loops -/

theorem rangeSlice_cons_eq_some (f : Value → Globals → Option (Value × Globals)) (s : Value)
    (rest : List Value) (g : Globals) (ys : List Value) (g' : Globals) :
    rangeSlice f (s :: rest) g = some (ys, g') ↔
      ∃ r g1 rs, f s g = some (r, g1) ∧ rangeSlice f rest g1 = some (rs, g') ∧ ys = r :: rs := by
  constructor
  · intro h
    simp only [rangeSlice] at h
    cases hs : f s g with
    | none => simp [hs] at h
    | some p =>
      obtain ⟨r, g1⟩ := p
      simp only [hs] at h
      cases hr : rangeSlice f rest g1 with
      | none => simp [hr] at h
      | some q =>
        obtain ⟨rs, g2⟩ := q
        simp only [hr, Option.some.injEq, Prod.mk.injEq] at h
        exact ⟨r, g1, rs, rfl, by rw [← h.2, hr], h.1.symm⟩
  · rintro ⟨r, g1, rs, h1, h2, rfl⟩
    simp only [rangeSlice, h1, h2]

theorem rangeMap_cons_eq_some (f : Value → Globals → Option (Value × Globals)) (k : String)
    (v : Value) (rest : List (String × Value)) (g : Globals) (ys : List (String × Value))
    (g' : Globals) :
    rangeMap f ((k, v) :: rest) g = some (ys, g') ↔
      ∃ r g1 rs, f v g = some (r, g1) ∧ rangeMap f rest g1 = some (rs, g') ∧
        ys = (k, r) :: rs := by
  constructor
  · intro h
    simp only [rangeMap] at h
    cases hs : f v g with
    | none => simp [hs] at h
    | some p =>
      obtain ⟨r, g1⟩ := p
      simp only [hs] at h
      cases hr : rangeMap f rest g1 with
      | none => simp [hr] at h
      | some q =>
        obtain ⟨rs, g2⟩ := q
        simp only [hr, Option.some.injEq, Prod.mk.injEq] at h
        exact ⟨r, g1, rs, rfl, by rw [← h.2, hr], h.1.symm⟩
  · rintro ⟨r, g1, rs, h1, h2, rfl⟩
    simp only [rangeMap, h1, h2]

theorem rangeSlice_nil_eq_some (f : Value → Globals → Option (Value × Globals)) (g : Globals)
    (ys : List Value) (g' : Globals) :
    rangeSlice f [] g = some (ys, g') ↔ ys = [] ∧ g' = g := by
  simp only [rangeSlice, Option.some.injEq, Prod.mk.injEq]
  constructor <;> rintro ⟨h1, h2⟩ <;> exact ⟨h1.symm, h2.symm⟩

theorem rangeMap_nil_eq_some (f : Value → Globals → Option (Value × Globals)) (g : Globals)
    (ys : List (String × Value)) (g' : Globals) :
    rangeMap f [] g = some (ys, g') ↔ ys = [] ∧ g' = g := by
  simp only [rangeMap, Option.some.injEq, Prod.mk.injEq]
  constructor <;> rintro ⟨h1, h2⟩ <;> exact ⟨h1.symm, h2.symm⟩

/-- The loop over a slice pairs every element with its image, in order. -/
theorem rangeSlice_forall₂ (f : Value → Globals → Option (Value × Globals)) :
    ∀ (xs : List Value) (g : Globals) (ys : List Value) (g' : Globals),
      rangeSlice f xs g = some (ys, g') →
        List.Forall₂ (fun x y => ∃ h h', f x h = some (y, h')) xs ys
  | [], g, ys, g', h => by
    rw [rangeSlice_nil_eq_some] at h
    rw [h.1]
    exact List.Forall₂.nil
  | s :: rest, g, ys, g', h => by
    rw [rangeSlice_cons_eq_some] at h
    obtain ⟨r, g1, rs, h1, h2, rfl⟩ := h
    exact List.Forall₂.cons ⟨g, g1, h1⟩ (rangeSlice_forall₂ f rest g1 rs g' h2)

/-- The loop over a map pairs every entry with an entry under the same key, in order. -/
theorem rangeMap_forall₂ (f : Value → Globals → Option (Value × Globals)) :
    ∀ (xs : List (String × Value)) (g : Globals) (ys : List (String × Value)) (g' : Globals),
      rangeMap f xs g = some (ys, g') →
        List.Forall₂ (fun x y => y.1 = x.1 ∧ ∃ h h', f x.2 h = some (y.2, h')) xs ys
  | [], g, ys, g', h => by
    rw [rangeMap_nil_eq_some] at h
    rw [h.1]
    exact List.Forall₂.nil
  | (k, v) :: rest, g, ys, g', h => by
    rw [rangeMap_cons_eq_some] at h
    obtain ⟨r, g1, rs, h1, h2, rfl⟩ := h
    exact List.Forall₂.cons ⟨rfl, g, g1, h1⟩ (rangeMap_forall₂ f rest g1 rs g' h2)

/-- If the loop body returns the paired value from every state, so does the loop. -/
theorem rangeSlice_of_forall₂ (f : Value → Globals → Option (Value × Globals))
    {xs ys : List Value}
    (hxy : List.Forall₂ (fun x y => ∀ h, ∃ h', f x h = some (y, h')) xs ys) :
    ∀ g, ∃ g', rangeSlice f xs g = some (ys, g') := by
  induction hxy with
  | nil => intro g; exact ⟨g, rfl⟩
  | cons hab _ ih =>
    intro g
    obtain ⟨g1, h1⟩ := hab g
    obtain ⟨g2, h2⟩ := ih g1
    exact ⟨g2, (rangeSlice_cons_eq_some _ _ _ _ _ _).2 ⟨_, g1, _, h1, h2, rfl⟩⟩

theorem rangeMap_of_forall₂ (f : Value → Globals → Option (Value × Globals))
    {xs ys : List (String × Value)}
    (hxy : List.Forall₂ (fun x y => y.1 = x.1 ∧ ∀ h, ∃ h', f x.2 h = some (y.2, h')) xs ys) :
    ∀ g, ∃ g', rangeMap f xs g = some (ys, g') := by
  induction hxy with
  | nil => intro g; exact ⟨g, rfl⟩
  | @cons a b l₁ l₂ hab _ ih =>
    intro g
    obtain ⟨k, v⟩ := a
    obtain ⟨k', r⟩ := b
    obtain ⟨hk, hv⟩ := hab
    simp only at hk hv
    subst hk
    obtain ⟨g1, h1⟩ := hv g
    obtain ⟨g2, h2⟩ := ih g1
    exact ⟨g2, (rangeMap_cons_eq_some _ _ _ _ _ _ _).2 ⟨_, g1, _, h1, h2, rfl⟩⟩

theorem rangeSlice_mono {f f' : Value → Globals → Option (Value × Globals)}
    (hf : ∀ v g x, f v g = some x → f' v g = some x) :
    ∀ (xs : List Value) (g : Globals) (y : List Value × Globals),
      rangeSlice f xs g = some y → rangeSlice f' xs g = some y
  | [], _, _, h => h
  | s :: rest, g, (ys, g'), h => by
    rw [rangeSlice_cons_eq_some] at h ⊢
    obtain ⟨r, g1, rs, h1, h2, h3⟩ := h
    exact ⟨r, g1, rs, hf _ _ _ h1, rangeSlice_mono hf rest g1 _ h2, h3⟩

theorem rangeMap_mono {f f' : Value → Globals → Option (Value × Globals)}
    (hf : ∀ v g x, f v g = some x → f' v g = some x) :
    ∀ (xs : List (String × Value)) (g : Globals) (y : List (String × Value) × Globals),
      rangeMap f xs g = some y → rangeMap f' xs g = some y
  | [], _, _, h => h
  | (k, v) :: rest, g, (ys, g'), h => by
    rw [rangeMap_cons_eq_some] at h ⊢
    obtain ⟨r, g1, rs, h1, h2, h3⟩ := h
    exact ⟨r, g1, rs, hf _ _ _ h1, rangeMap_mono hf rest g1 _ h2, h3⟩

/-! ## More fuel never changes a result; the result does not depend on the state -/

theorem parseAsJSON_succ (d : Libs) :
    ∀ (n : Nat) (v : Value) (g : Globals) (x : Value × Globals),
      parseAsJSON d n v g = some x → parseAsJSON d (n + 1) v g = some x
  | 0, v, g, x, h => by simp [parseAsJSON_zero] at h
  | n + 1, v, g, x, h => by
    have ih := parseAsJSON_succ d n
    cases v with
    | null => exact h
    | bool b => exact h
    | number y => exact h
    | other t => exact h
    | anyMap t => exact h
    | seq xs =>
      rw [parseAsJSON_seq, Option.map_eq_some'] at h ⊢
      obtain ⟨p, hp, rfl⟩ := h
      exact ⟨p, rangeSlice_mono ih _ _ _ hp, rfl⟩
    | map m =>
      rw [parseAsJSON_map, Option.map_eq_some'] at h ⊢
      obtain ⟨p, hp, rfl⟩ := h
      exact ⟨p, rangeMap_mono ih _ _ _ hp, rfl⟩
    | str s =>
      cases hv : d.jsonValid s with
      | true =>
        cases hu : d.jsonUnmarshal s with
        | error e =>
          rw [parseAsJSON_str_json_err _ _ _ _ _ hv hu] at h ⊢
          exact h
        | ok w =>
          rw [parseAsJSON_str_json _ _ _ _ _ hv hu, Option.map_eq_some'] at h ⊢
          obtain ⟨p, hp, rfl⟩ := h
          exact ⟨p, ih _ _ _ hp, rfl⟩
      | false =>
        cases hu : d.yamlUnmarshal s with
        | error e =>
          rw [parseAsJSON_str_yaml_err _ _ _ _ _ hv hu] at h ⊢
          exact h
        | ok w =>
          rw [parseAsJSON_str_yaml _ _ _ _ _ hv hu, Option.map_eq_some'] at h ⊢
          obtain ⟨p, hp, rfl⟩ := h
          exact ⟨p, ih _ _ _ hp, rfl⟩

theorem parseAsJSON_mono (d : Libs) {n m : Nat} (hnm : n ≤ m) (v : Value) (g : Globals)
    (x : Value × Globals) (h : parseAsJSON d n v g = some x) : parseAsJSON d m v g = some x := by
  induction hnm with
  | refl => exact h
  | step _ ih => exact parseAsJSON_succ d _ v g x ih

theorem rangeSlice_state {f : Value → Globals → Option (Value × Globals)}
    (hf : ∀ v g r g', f v g = some (r, g') → ∀ h, ∃ h', f v h = some (r, h'))
    (xs : List Value) (g : Globals) (ys : List Value) (g' : Globals)
    (hx : rangeSlice f xs g = some (ys, g')) : ∀ h, ∃ h', rangeSlice f xs h = some (ys, h') :=
  rangeSlice_of_forall₂ f
    ((rangeSlice_forall₂ f xs g ys g' hx).imp (fun _ _ ⟨h0, h1, e⟩ => hf _ h0 _ h1 e))

theorem rangeMap_state {f : Value → Globals → Option (Value × Globals)}
    (hf : ∀ v g r g', f v g = some (r, g') → ∀ h, ∃ h', f v h = some (r, h'))
    (xs : List (String × Value)) (g : Globals) (ys : List (String × Value)) (g' : Globals)
    (hx : rangeMap f xs g = some (ys, g')) : ∀ h, ∃ h', rangeMap f xs h = some (ys, h') :=
  rangeMap_of_forall₂ f
    ((rangeMap_forall₂ f xs g ys g' hx).imp (fun _ _ ⟨hk, h0, h1, e⟩ => ⟨hk, hf _ h0 _ h1 e⟩))

/-- The value `parseAsJSON` returns is the same from every state of the package variables. -/
theorem parseAsJSON_state (d : Libs) :
    ∀ (n : Nat) (v : Value) (g : Globals) (r : Value) (g' : Globals),
      parseAsJSON d n v g = some (r, g') → ∀ h, ∃ h', parseAsJSON d n v h = some (r, h')
  | 0, v, g, r, g', e => by simp [parseAsJSON_zero] at e
  | n + 1, v, g, r, g', e => by
    have ih := parseAsJSON_state d n
    intro h
    cases v with
    | null => rw [parseAsJSON_null] at e ⊢; exact ⟨_, by rw [(Prod.mk.inj (Option.some.inj e)).1]⟩
    | bool b => rw [parseAsJSON_bool] at e ⊢; exact ⟨_, by rw [(Prod.mk.inj (Option.some.inj e)).1]⟩
    | number y =>
      rw [parseAsJSON_number] at e ⊢; exact ⟨_, by rw [(Prod.mk.inj (Option.some.inj e)).1]⟩
    | other t =>
      rw [parseAsJSON_other] at e ⊢; exact ⟨_, by rw [(Prod.mk.inj (Option.some.inj e)).1]⟩
    | anyMap t =>
      rw [parseAsJSON_anyMap] at e ⊢; exact ⟨_, by rw [(Prod.mk.inj (Option.some.inj e)).1]⟩
    | seq xs =>
      rw [parseAsJSON_seq, Option.map_eq_some'] at e
      obtain ⟨⟨ys, g1⟩, hp, hr⟩ := e
      obtain ⟨h1, hh⟩ := rangeSlice_state ih xs _ ys g1 hp (enter d (.seq xs) h)
      refine ⟨deferred h1, ?_⟩
      rw [parseAsJSON_seq, hh]
      simp only [Option.map_some', Option.some.injEq, Prod.mk.injEq] at hr ⊢
      exact ⟨hr.1, trivial⟩
    | map m =>
      rw [parseAsJSON_map, Option.map_eq_some'] at e
      obtain ⟨⟨ys, g1⟩, hp, hr⟩ := e
      obtain ⟨h1, hh⟩ := rangeMap_state ih _ _ ys g1 hp (enter d (.map m) h)
      refine ⟨deferred h1, ?_⟩
      rw [parseAsJSON_map, hh]
      simp only [Option.map_some', Option.some.injEq, Prod.mk.injEq] at hr ⊢
      exact ⟨hr.1, trivial⟩
    | str s =>
      cases hv : d.jsonValid s with
      | true =>
        cases hu : d.jsonUnmarshal s with
        | error er =>
          rw [parseAsJSON_str_json_err _ _ _ _ _ hv hu] at e ⊢
          exact ⟨_, by rw [(Prod.mk.inj (Option.some.inj e)).1]⟩
        | ok w =>
          rw [parseAsJSON_str_json _ _ _ _ _ hv hu, Option.map_eq_some'] at e
          obtain ⟨⟨r1, g1⟩, hp, hr⟩ := e
          obtain ⟨h1, hh⟩ := ih w _ r1 g1 hp (enter d (.str s) h)
          refine ⟨deferred h1, ?_⟩
          rw [parseAsJSON_str_json _ _ _ _ _ hv hu, hh]
          simp only [Option.map_some', Option.some.injEq, Prod.mk.injEq] at hr ⊢
          exact ⟨hr.1, trivial⟩
      | false =>
        cases hu : d.yamlUnmarshal s with
        | error er =>
          rw [parseAsJSON_str_yaml_err _ _ _ _ _ hv hu] at e ⊢
          exact ⟨_, by rw [(Prod.mk.inj (Option.some.inj e)).1]⟩
        | ok w =>
          rw [parseAsJSON_str_yaml _ _ _ _ _ hv hu, Option.map_eq_some'] at e
          obtain ⟨⟨r1, g1⟩, hp, hr⟩ := e
          obtain ⟨h1, hh⟩ := ih (.map w) _ r1 g1 hp (enter d (.str s) h)
          refine ⟨deferred h1, ?_⟩
          rw [parseAsJSON_str_yaml _ _ _ _ _ hv hu, hh]
          simp only [Option.map_some', Option.some.injEq, Prod.mk.injEq] at hr ⊢
          exact ⟨hr.1, trivial⟩

/-! ## What a call returns -/

theorem returns_fuel (d : Libs) {v r : Value} (h : Returns d v r) :
    ∃ n, ∀ m, n ≤ m → ∀ g, ∃ g', parseAsJSON d m v g = some (r, g') := by
  obtain ⟨n, g0, g1, e⟩ := h
  exact ⟨n, fun m hm g => parseAsJSON_state d m v g0 r g1 (parseAsJSON_mono d hm v g0 _ e) g⟩

theorem returns_unique (d : Libs) {v r r' : Value} (h : Returns d v r) (h' : Returns d v r') :
    r = r' := by
  obtain ⟨n, hn⟩ := returns_fuel d h
  obtain ⟨m, hm⟩ := returns_fuel d h'
  obtain ⟨g1, e1⟩ := hn (max n m) (le_max_left n m) Globals.initial
  obtain ⟨g2, e2⟩ := hm (max n m) (le_max_right n m) Globals.initial
  rw [e1] at e2
  exact (Prod.mk.inj (Option.some.inj e2)).1

theorem forall₂_returns_fuel (d : Libs) {xs ys : List Value}
    (h : List.Forall₂ (Returns d) xs ys) :
    ∃ n, List.Forall₂ (fun x y => ∀ g, ∃ g', parseAsJSON d n x g = some (y, g')) xs ys := by
  induction h with
  | nil => exact ⟨0, List.Forall₂.nil⟩
  | cons hab _ ih =>
    obtain ⟨n1, h1⟩ := returns_fuel d hab
    obtain ⟨n2, h2⟩ := ih
    refine ⟨max n1 n2, List.Forall₂.cons (h1 _ (le_max_left n1 n2)) (h2.imp ?_)⟩
    intro x y hxy g
    obtain ⟨g', e⟩ := hxy g
    exact ⟨g', parseAsJSON_mono d (le_max_right n1 n2) x g _ e⟩

theorem forall₂_entries_fuel (d : Libs) {xs ys : List (String × Value)}
    (h : List.Forall₂ (fun e e' => e'.1 = e.1 ∧ Returns d e.2 e'.2) xs ys) :
    ∃ n, List.Forall₂
      (fun x y => y.1 = x.1 ∧ ∀ g, ∃ g', parseAsJSON d n x.2 g = some (y.2, g')) xs ys := by
  induction h with
  | nil => exact ⟨0, List.Forall₂.nil⟩
  | cons hab _ ih =>
    obtain ⟨n1, h1⟩ := returns_fuel d hab.2
    obtain ⟨n2, h2⟩ := ih
    refine ⟨max n1 n2, List.Forall₂.cons ⟨hab.1, h1 _ (le_max_left n1 n2)⟩ (h2.imp ?_)⟩
    rintro x y ⟨hk, hxy⟩
    refine ⟨hk, fun g => ?_⟩
    obtain ⟨g', e⟩ := hxy g
    exact ⟨g', parseAsJSON_mono d (le_max_right n1 n2) x.2 g _ e⟩

theorem returns_seq_iff (d : Libs) (xs : List Value) (r : Value) :
    Returns d (.seq xs) r ↔ ∃ ys, r = .seq ys ∧ List.Forall₂ (Returns d) xs ys := by
  constructor
  · rintro ⟨n, g, g', e⟩
    cases n with
    | zero => simp [parseAsJSON_zero] at e
    | succ n =>
      rw [parseAsJSON_seq, Option.map_eq_some'] at e
      obtain ⟨⟨ys, g1⟩, hp, hr⟩ := e
      refine ⟨ys, (Prod.mk.inj hr).1.symm, (rangeSlice_forall₂ _ _ _ _ _ hp).imp ?_⟩
      rintro x y ⟨h0, h1, e⟩
      exact ⟨n, h0, h1, e⟩
  · rintro ⟨ys, rfl, h⟩
    obtain ⟨n, hn⟩ := forall₂_returns_fuel d h
    obtain ⟨g1, e⟩ := rangeSlice_of_forall₂ _ hn (enter d (.seq xs) Globals.initial)
    exact ⟨n + 1, Globals.initial, deferred g1, by rw [parseAsJSON_seq, e]; rfl⟩

theorem returns_map_iff (d : Libs) (m : GoMap) (r : Value) :
    Returns d (.map m) r ↔
      ∃ es, r = .map (some es) ∧
        List.Forall₂ (fun e e' => e'.1 = e.1 ∧ Returns d e.2 e'.2) (m.getD []) es := by
  constructor
  · rintro ⟨n, g, g', e⟩
    cases n with
    | zero => simp [parseAsJSON_zero] at e
    | succ n =>
      rw [parseAsJSON_map, Option.map_eq_some'] at e
      obtain ⟨⟨ys, g1⟩, hp, hr⟩ := e
      refine ⟨ys, (Prod.mk.inj hr).1.symm, (rangeMap_forall₂ _ _ _ _ _ hp).imp ?_⟩
      rintro x y ⟨hk, h0, h1, e⟩
      exact ⟨hk, n, h0, h1, e⟩
  · rintro ⟨ys, rfl, h⟩
    obtain ⟨n, hn⟩ := forall₂_entries_fuel d h
    obtain ⟨g1, e⟩ := rangeMap_of_forall₂ _ hn (enter d (.map m) Globals.initial)
    exact ⟨n + 1, Globals.initial, deferred g1, by rw [parseAsJSON_map, e]; rfl⟩

theorem returns_str_json_iff (d : Libs) (s : String) (v r : Value)
    (hv : d.jsonValid s = true) (hu : d.jsonUnmarshal s = .ok v) :
    Returns d (.str s) r ↔ Returns d v r := by
  constructor
  · rintro ⟨n, g, g', e⟩
    cases n with
    | zero => simp [parseAsJSON_zero] at e
    | succ n =>
      rw [parseAsJSON_str_json _ _ _ _ _ hv hu, Option.map_eq_some'] at e
      obtain ⟨⟨r1, g1⟩, hp, hr⟩ := e
      obtain rfl : r1 = r := (Prod.mk.inj hr).1
      exact ⟨n, _, g1, hp⟩
  · rintro ⟨n, g, g', e⟩
    obtain ⟨g1, e1⟩ := parseAsJSON_state d n v g r g' e (enter d (.str s) g)
    exact ⟨n + 1, g, deferred g1, by rw [parseAsJSON_str_json _ _ _ _ _ hv hu, e1]; rfl⟩

theorem returns_str_yaml_iff (d : Libs) (s : String) (m : GoMap) (r : Value)
    (hv : d.jsonValid s = false) (hu : d.yamlUnmarshal s = .ok m) :
    Returns d (.str s) r ↔ Returns d (.map m) r := by
  constructor
  · rintro ⟨n, g, g', e⟩
    cases n with
    | zero => simp [parseAsJSON_zero] at e
    | succ n =>
      rw [parseAsJSON_str_yaml _ _ _ _ _ hv hu, Option.map_eq_some'] at e
      obtain ⟨⟨r1, g1⟩, hp, hr⟩ := e
      obtain rfl : r1 = r := (Prod.mk.inj hr).1
      exact ⟨n, _, g1, hp⟩
  · rintro ⟨n, g, g', e⟩
    obtain ⟨g1, e1⟩ := parseAsJSON_state d n (.map m) g r g' e (enter d (.str s) g)
    exact ⟨n + 1, g, deferred g1, by rw [parseAsJSON_str_yaml _ _ _ _ _ hv hu, e1]; rfl⟩

/-! ## A second pass changes nothing -/

theorem forall₂_diag {α : Type} {R S : α → α → Prop} (hRS : ∀ x y, R x y → S y y) :
    ∀ {xs ys : List α}, List.Forall₂ R xs ys → List.Forall₂ S ys ys
  | _, _, List.Forall₂.nil => List.Forall₂.nil
  | _, _, List.Forall₂.cons h t => List.Forall₂.cons (hRS _ _ h) (forall₂_diag hRS t)

/-- Whenever `parseAsJSON(v)` returns `r`, the call `parseAsJSON(r)` returns `r` again, from
every state of the package variables and with no more fuel than the first call had. -/
theorem parseAsJSON_fixed_result (d : Libs) :
    ∀ (n : Nat) (v : Value) (g : Globals) (r : Value) (g' : Globals),
      parseAsJSON d n v g = some (r, g') → ∀ h, ∃ h', parseAsJSON d n r h = some (r, h')
  | 0, v, g, r, g', e => by simp [parseAsJSON_zero] at e
  | n + 1, v, g, r, g', e => by
    have ih := parseAsJSON_fixed_result d n
    intro h
    cases v with
    | null => exact parseAsJSON_state d _ _ g r g' (by
        have := e; rw [parseAsJSON_null] at this
        rw [← (Prod.mk.inj (Option.some.inj this)).1] at e ⊢; exact e) h
    | bool b => exact parseAsJSON_state d _ _ g r g' (by
        have := e; rw [parseAsJSON_bool] at this
        rw [← (Prod.mk.inj (Option.some.inj this)).1] at e ⊢; exact e) h
    | number y => exact parseAsJSON_state d _ _ g r g' (by
        have := e; rw [parseAsJSON_number] at this
        rw [← (Prod.mk.inj (Option.some.inj this)).1] at e ⊢; exact e) h
    | other t => exact parseAsJSON_state d _ _ g r g' (by
        have := e; rw [parseAsJSON_other] at this
        rw [← (Prod.mk.inj (Option.some.inj this)).1] at e ⊢; exact e) h
    | anyMap t => exact parseAsJSON_state d _ _ g r g' (by
        have := e; rw [parseAsJSON_anyMap] at this
        rw [← (Prod.mk.inj (Option.some.inj this)).1] at e ⊢; exact e) h
    | seq xs =>
      rw [parseAsJSON_seq, Option.map_eq_some'] at e
      obtain ⟨⟨ys, g1⟩, hp, hr⟩ := e
      obtain rfl : Value.seq ys = r := (Prod.mk.inj hr).1
      have hd : List.Forall₂ (fun x y => ∀ h, ∃ h', parseAsJSON d n x h = some (y, h')) ys ys :=
        forall₂_diag (fun x y ⟨h0, h1, e0⟩ => ih x h0 y h1 e0) (rangeSlice_forall₂ _ _ _ _ _ hp)
      obtain ⟨h1, e1⟩ := rangeSlice_of_forall₂ _ hd (enter d (.seq ys) h)
      exact ⟨deferred h1, by rw [parseAsJSON_seq, e1]; rfl⟩
    | map m =>
      rw [parseAsJSON_map, Option.map_eq_some'] at e
      obtain ⟨⟨ys, g1⟩, hp, hr⟩ := e
      obtain rfl : Value.map (some ys) = r := (Prod.mk.inj hr).1
      have hd : List.Forall₂
          (fun x y => y.1 = x.1 ∧ ∀ h, ∃ h', parseAsJSON d n x.2 h = some (y.2, h')) ys ys :=
        forall₂_diag (fun x y ⟨_, h0, h1, e0⟩ => ⟨rfl, ih x.2 h0 y.2 h1 e0⟩)
          (rangeMap_forall₂ _ _ _ _ _ hp)
      obtain ⟨h1, e1⟩ := rangeMap_of_forall₂ _ hd (enter d (.map (some ys)) h)
      exact ⟨deferred h1, by rw [parseAsJSON_map]; simp only [Option.getD_some]; rw [e1]; rfl⟩
    | str s =>
      cases hv : d.jsonValid s with
      | true =>
        cases hu : d.jsonUnmarshal s with
        | error er =>
          have := e
          rw [parseAsJSON_str_json_err _ _ _ _ _ hv hu] at this
          rw [← (Prod.mk.inj (Option.some.inj this)).1] at e ⊢
          exact parseAsJSON_state d _ _ g _ g' e h
        | ok w =>
          rw [parseAsJSON_str_json _ _ _ _ _ hv hu, Option.map_eq_some'] at e
          obtain ⟨⟨r1, g1⟩, hp, hr⟩ := e
          obtain rfl : r1 = r := (Prod.mk.inj hr).1
          obtain ⟨h1, e1⟩ := ih w _ r1 g1 hp h
          exact ⟨h1, parseAsJSON_succ d n r1 h _ e1⟩
      | false =>
        cases hu : d.yamlUnmarshal s with
        | error er =>
          have := e
          rw [parseAsJSON_str_yaml_err _ _ _ _ _ hv hu] at this
          rw [← (Prod.mk.inj (Option.some.inj this)).1] at e ⊢
          exact parseAsJSON_state d _ _ g _ g' e h
        | ok w =>
          rw [parseAsJSON_str_yaml _ _ _ _ _ hv hu, Option.map_eq_some'] at e
          obtain ⟨⟨r1, g1⟩, hp, hr⟩ := e
          obtain rfl : r1 = r := (Prod.mk.inj hr).1
          obtain ⟨h1, e1⟩ := ih (.map w) _ r1 g1 hp h
          exact ⟨h1, parseAsJSON_succ d n r1 h _ e1⟩

/-! ## Termination -/

theorem exists_forall₂ {α β : Type} {R : α → β → Prop} :
    ∀ (xs : List α), (∀ x ∈ xs, ∃ y, R x y) → ∃ ys, List.Forall₂ R xs ys
  | [], _ => ⟨[], List.Forall₂.nil⟩
  | x :: xs, h => by
    obtain ⟨y, hy⟩ := h x (List.mem_cons_self x xs)
    obtain ⟨ys, hys⟩ := exists_forall₂ xs (fun z hz => h z (List.mem_cons_of_mem x hz))
    exact ⟨y :: ys, List.Forall₂.cons hy hys⟩

theorem exists_common_bound {α : Type} {P : α → Nat → Prop}
    (hmono : ∀ x n m, n ≤ m → P x n → P x m) :
    ∀ (xs : List α), (∀ x ∈ xs, ∃ n, P x n) → ∃ n, ∀ x ∈ xs, P x n
  | [], _ => ⟨0, fun _ hx => absurd hx (List.not_mem_nil _)⟩
  | x :: xs, h => by
    obtain ⟨n, hn⟩ := h x (List.mem_cons_self x xs)
    obtain ⟨m, hm⟩ := exists_common_bound hmono xs (fun z hz => h z (List.mem_cons_of_mem x hz))
    refine ⟨max n m, fun z hz => ?_⟩
    rcases List.mem_cons.1 hz with rfl | hz
    · exact hmono _ _ _ (le_max_left n m) hn
    · exact hmono _ _ _ (le_max_right n m) (hm z hz)

theorem sizeOf_elem_lt {xs : List Value} {x : Value} (hx : x ∈ xs) :
    sizeOf x < sizeOf (Value.seq xs) := by
  have := List.sizeOf_lt_of_mem hx
  simp only [Value.seq.sizeOf_spec]
  omega

theorem sizeOf_entry_lt {es : List (String × Value)} {k : String} {x : Value}
    (hx : (k, x) ∈ es) : sizeOf x < sizeOf (Value.map (some es)) := by
  have := List.sizeOf_lt_of_mem hx
  simp only [Value.map.sizeOf_spec, Option.some.sizeOf_spec, Prod.mk.sizeOf_spec] at this ⊢
  omega

theorem leaf_seq {xs : List Value} {t : String} (h : Leaf (.seq xs) t) :
    ∃ x ∈ xs, Leaf x t := by
  cases h with
  | elem hx h => exact ⟨_, hx, h⟩

theorem leaf_map {m : GoMap} {t : String} (h : Leaf (.map m) t) :
    ∃ k x, (k, x) ∈ m.getD [] ∧ Leaf x t := by
  cases h with
  | entry hx h => exact ⟨_, _, hx, h⟩

/-- A value has finitely many string leaves, so their lengths have a common bound. -/
theorem leaf_bound (v : Value) : ∃ N, ∀ t, Leaf v t → t.length < N := by
  generalize hk : sizeOf v = k
  induction k using Nat.strong_induction_on generalizing v with
  | _ k ih =>
    subst hk
    cases v with
    | null => exact ⟨0, fun t h => by cases h⟩
    | bool b => exact ⟨0, fun t h => by cases h⟩
    | number x => exact ⟨0, fun t h => by cases h⟩
    | other x => exact ⟨0, fun t h => by cases h⟩
    | anyMap x => exact ⟨0, fun t h => by cases h⟩
    | str s => exact ⟨s.length + 1, fun t h => by cases h; exact Nat.lt_succ_self _⟩
    | seq xs =>
      obtain ⟨N, hN⟩ := exists_common_bound
        (P := fun (x : Value) N => ∀ t, Leaf x t → t.length < N)
        (fun x n m hnm h t ht => lt_of_lt_of_le (h t ht) hnm) xs
        (fun x hx => ih _ (sizeOf_elem_lt hx) x rfl)
      refine ⟨N, fun t ht => ?_⟩
      obtain ⟨x, hx, hl⟩ := leaf_seq ht
      exact hN x hx t hl
    | map m =>
      cases m with
      | none => exact ⟨0, fun t h => by cases h⟩
      | some es =>
        obtain ⟨N, hN⟩ := exists_common_bound
          (P := fun (e : String × Value) N => ∀ t, Leaf e.2 t → t.length < N)
          (fun x n m hnm h t ht => lt_of_lt_of_le (h t ht) hnm) es
          (fun e he => ih _ (sizeOf_entry_lt (k := e.1) (x := e.2) he) e.2 rfl)
        refine ⟨N, fun t ht => ?_⟩
        obtain ⟨k, x, hx, hl⟩ := leaf_map ht
        exact hN (k, x) hx t hl

/-- With decoders that shrink, every value whose string leaves are shorter than `N` is one
`parseAsJSON` returns on. -/
theorem returns_of_bound (d : Libs) (hs : Shrinks d) (N : Nat) :
    ∀ v : Value, (∀ t, Leaf v t → t.length < N) → ∃ r, Returns d v r := by
  induction N using Nat.strong_induction_on with
  | _ N ihN =>
    intro v
    generalize hk : sizeOf v = k
    induction k using Nat.strong_induction_on generalizing v with
    | _ k ih =>
      intro hb
      subst hk
      cases v with
      | null => exact ⟨.null, 1, Globals.initial, _, rfl⟩
      | bool b => exact ⟨.bool b, 1, Globals.initial, _, rfl⟩
      | number x => exact ⟨.number x, 1, Globals.initial, _, rfl⟩
      | other x => exact ⟨.other x, 1, Globals.initial, _, rfl⟩
      | anyMap x => exact ⟨.anyMap x, 1, Globals.initial, _, rfl⟩
      | seq xs =>
        obtain ⟨ys, hys⟩ := exists_forall₂ (R := Returns d) xs
          (fun x hx => ih _ (sizeOf_elem_lt hx) x rfl (fun t ht => hb t (Leaf.elem hx ht)))
        exact ⟨.seq ys, (returns_seq_iff d xs _).2 ⟨ys, rfl, hys⟩⟩
      | map m =>
        have hes : ∀ e ∈ m.getD [], ∃ e' : String × Value, e'.1 = e.1 ∧ Returns d e.2 e'.2 := by
          intro e he
          cases m with
          | none => exact absurd he (List.not_mem_nil _)
          | some es =>
            obtain ⟨r, hr⟩ := ih _ (sizeOf_entry_lt (k := e.1) (x := e.2) he) e.2 rfl
              (fun t ht => hb t (Leaf.entry (k := e.1) he ht))
            exact ⟨(e.1, r), rfl, hr⟩
        obtain ⟨es', hes'⟩ := exists_forall₂ _ hes
        exact ⟨.map (some es'), (returns_map_iff d m _).2 ⟨es', rfl, hes'⟩⟩
      | str s =>
        have hsN : s.length < N := hb s (Leaf.root s)
        cases hv : d.jsonValid s with
        | true =>
          cases hu : d.jsonUnmarshal s with
          | error e =>
            exact ⟨.str s, 1, Globals.initial, _,
              parseAsJSON_str_json_err d 0 s e _ hv hu⟩
          | ok w =>
            obtain ⟨r, hr⟩ := ihN s.length hsN w (hs.1 s w hv hu)
            exact ⟨r, (returns_str_json_iff d s w r hv hu).2 hr⟩
        | false =>
          cases hu : d.yamlUnmarshal s with
          | error e =>
            exact ⟨.str s, 1, Globals.initial, _,
              parseAsJSON_str_yaml_err d 0 s e _ hv hu⟩
          | ok m =>
            obtain ⟨r, hr⟩ := ihN s.length hsN (.map m) (hs.2 s m hv hu)
            exact ⟨r, (returns_str_yaml_iff d s m r hv hu).2 hr⟩

theorem decodes_shrinks {d : Libs} (hs : Shrinks d) {s : String} {w : Value}
    (h : Decodes d s w) : ∀ t, Leaf w t → t.length < s.length := by
  cases h with
  | json hv hu => exact hs.1 s w hv hu
  | yaml hv hu => exact hs.2 s _ hv hu

theorem layers_le_bound {d : Libs} (hs : Shrinks d) {v : Value} {k : Nat} (h : Layers d v k) :
    ∀ N, (∀ t, Leaf v t → t.length < N) → k ≤ N := by
  induction h with
  | zero v => intro N _; exact Nat.zero_le N
  | succ hl hd _ ih =>
    intro N hb
    have h1 := hb _ hl
    have h2 := ih _ (decodes_shrinks hs hd)
    omega

/-- Without a shrinking decoder the recursion need not end: on a string that is valid JSON and
decodes to itself the call never returns, whatever the fuel. -/
theorem parseAsJSON_self_decoding (d : Libs) (s : String) (hv : d.jsonValid s = true)
    (hu : d.jsonUnmarshal s = .ok (.str s)) :
    ∀ (n : Nat) (g : Globals), parseAsJSON d n (.str s) g = none
  | 0, _ => rfl
  | n + 1, g => by
    rw [parseAsJSON_str_json d n s _ g hv hu, parseAsJSON_self_decoding d s hv hu n]
    rfl

theorem sampleLibs_shrinks : Shrinks sampleLibs := by
  constructor
  · intro s v hv hu t ht
    simp only [sampleLibs] at hu
    split_ifs at hu with h1 h2 h3 h4
    · injection hu with hu
      subst hu h1
      obtain ⟨x, hx, hl⟩ := leaf_seq ht
      simp only [List.mem_cons, List.mem_singleton, List.not_mem_nil, or_false] at hx
      rcases hx with rfl | rfl | rfl <;> cases hl
    · injection hu with hu
      subst hu h2
      obtain ⟨k, x, hx, hl⟩ := leaf_map ht
      simp only [Option.getD_some, List.mem_singleton, Prod.mk.injEq] at hx
      obtain ⟨_, rfl⟩ := hx
      cases hl
      decide
    · injection hu with hu
      subst hu
      cases ht
    · injection hu with hu
      subst hu
      cases ht
  · intro s m hv hu t ht
    simp only [sampleLibs] at hu
    split_ifs at hu with h1 h2
    · injection hu with hu
      subst hu
      cases ht
    · injection hu with hu
      subst hu h2
      obtain ⟨k, x, hx, hl⟩ := leaf_map ht
      simp only [Option.getD_some, List.mem_singleton, Prod.mk.injEq] at hx
      obtain ⟨_, rfl⟩ := hx
      cases hl
      decide

/-! ## The claims about the normalizer -/

/-- C1 (idempotence of the normalizer): whenever `parseAsJSON(v)` returns `r` and leaves the
state `g'`, the call `parseAsJSON(r)` made next returns `r` again, with no more fuel than the first
call had; and with decoders that shrink, both calls do return for every value `v`. -/
theorem parseAsJSON_idempotent (d : Libs) :
    (∀ n v g r g', parseAsJSON d n v g = some (r, g') →
      ∃ g'', parseAsJSON d n r g' = some (r, g'')) ∧
    (Shrinks d → ∀ v g, ∃ n r g' g'',
      parseAsJSON d n v g = some (r, g') ∧ parseAsJSON d n r g' = some (r, g'')) := by
  refine ⟨fun n v g r g' e => parseAsJSON_fixed_result d n v g r g' e g', fun hs v g => ?_⟩
  obtain ⟨N, hN⟩ := leaf_bound v
  obtain ⟨r, hr⟩ := returns_of_bound d hs N v hN
  obtain ⟨n, hn⟩ := returns_fuel d hr
  obtain ⟨g', e⟩ := hn n (le_refl n) g
  obtain ⟨g'', e'⟩ := parseAsJSON_fixed_result d n v g r g' e g'
  exact ⟨n, r, g', g'', e, e'⟩

/-- Witness of C1: the mapping with one entry holding JSON text normalizes to a nested mapping,
and normalizing that again returns it unchanged; the sample libraries shrink, so both calls
return. -/
theorem parseAsJSON_idempotent_witness :
    parseAsJSON sampleLibs 5 (.map (some [("a", .str "\x7b\"b\": \"1\"\x7d")]))
      Globals.initial = some (.map (some [("a", .map (some [("b", .number 1)]))]),
        Globals.initial) ∧
    (∃ g'', parseAsJSON sampleLibs 5
      (.map (some [("a", .map (some [("b", .number 1)]))])) Globals.initial =
        some (.map (some [("a", .map (some [("b", .number 1)]))]), g'')) ∧
    Shrinks sampleLibs ∧
    ∃ n r g' g'', parseAsJSON sampleLibs n (.str "k: v") Globals.initial = some (r, g') ∧
      parseAsJSON sampleLibs n r g' = some (r, g'') :=
  ⟨rfl, (parseAsJSON_idempotent sampleLibs).1 5
    (.map (some [("a", .str "\x7b\"b\": \"1\"\x7d")])) Globals.initial
    (.map (some [("a", .map (some [("b", .number 1)]))])) Globals.initial rfl,
    sampleLibs_shrinks,
    (parseAsJSON_idempotent sampleLibs).2 sampleLibs_shrinks (.str "k: v") Globals.initial⟩

/-- C2 as stated fails: the text `1e999` is syntactically valid JSON, yet the JSON decoder
rejects it (the number is outside the range of `float64`), so there is no decoded value to
normalize: `parseAsJSON` logs the failure and returns the string itself. -/
theorem parseAsJSON_json_precedence_counterexample :
    sampleLibs.jsonValid "1e999" = true ∧
    (∀ v, sampleLibs.jsonUnmarshal "1e999" ≠ .ok v) ∧
    parseAsJSON sampleLibs 1 (.str "1e999") Globals.initial =
      some (.str "1e999", { Globals.initial with
        logged := ["Error unmarshalling JSON: 1e999\n"] }) ∧
    ∀ r, Returns sampleLibs (.str "1e999") r → r = .str "1e999" := by
  have he : parseAsJSON sampleLibs 1 (.str "1e999") Globals.initial =
      some (.str "1e999", { Globals.initial with
        logged := ["Error unmarshalling JSON: 1e999\n"] }) := rfl
  refine ⟨rfl, ?_, he, fun r hr => returns_unique sampleLibs hr ⟨1, _, _, he⟩⟩
  intro v h
  have h' : (Except.error "json: cannot unmarshal" : Except String Value) = .ok v := h
  cases h'

/-- C2 (amended; JSON precedence): for a string `s` that is valid JSON and that the JSON decoder
decodes to `v`, the call on `s` is the call on `v` wrapped in the entry and exit bookkeeping, so
it returns exactly what the call on `v` returns, whatever the YAML decoder is: the equation has no
case for it.  For `s = "[1,2,3]"` decoding to the sequence `[1,2,3]` the call returns that
sequence. -/
theorem parseAsJSON_json_precedence (d : Libs) (s : String) (v : Value)
    (hv : d.jsonValid s = true) (hu : d.jsonUnmarshal s = .ok v) :
    (∀ n g, parseAsJSON d (n + 1) (.str s) g =
        (parseAsJSON d n v (enter d (.str s) g)).map (fun p => (p.1, deferred p.2))) ∧
    (∀ r, Returns d (.str s) r ↔ Returns d v r) ∧
    (∀ y, (∀ n g, parseAsJSON { d with yamlUnmarshal := y } (n + 1) (.str s) g =
        (parseAsJSON { d with yamlUnmarshal := y } n v (enter d (.str s) g)).map
          (fun p => (p.1, deferred p.2)))) ∧
    (s = "[1,2,3]" → v = .seq [.number 1, .number 2, .number 3] →
      ∀ g, ∃ g', parseAsJSON d 3 (.str s) g =
        some (.seq [.number 1, .number 2, .number 3], g')) := by
  refine ⟨fun n g => parseAsJSON_str_json d n s v g hv hu,
    fun r => returns_str_json_iff d s v r hv hu,
    fun y n g => parseAsJSON_str_json { d with yamlUnmarshal := y } n s v g hv hu, ?_⟩
  rintro rfl rfl g
  rw [parseAsJSON_str_json d 2 _ _ g hv hu, parseAsJSON_seq]
  exact ⟨_, rfl⟩

/-- Witness of C2 (amended): with the sample libraries the string `[1,2,3]` is valid JSON, decodes to the
sequence of the three numbers, and `parseAsJSON` returns that sequence. -/
theorem parseAsJSON_json_precedence_witness :
    sampleLibs.jsonValid "[1,2,3]" = true ∧
    sampleLibs.jsonUnmarshal "[1,2,3]" = .ok (.seq [.number 1, .number 2, .number 3]) ∧
    ∃ g', parseAsJSON sampleLibs 3 (.str "[1,2,3]") Globals.initial =
      some (.seq [.number 1, .number 2, .number 3], g') :=
  ⟨rfl, rfl,
    (parseAsJSON_json_precedence sampleLibs "[1,2,3]" (.seq [.number 1, .number 2, .number 3])
      rfl rfl).2.2.2 rfl rfl Globals.initial⟩

/-- C3 (the claim holds of the design, the code misses a case): the fallback is restricted to
mappings by decoding into a `map[string]any` and returning the string on an error, and so the bare
scalar `hello` comes back unchanged; but the empty string, which is not valid JSON and whose YAML
reading is not a mapping, is decoded without error into a target left nil, and `parseAsJSON`
returns the empty mapping for it, not the string. -/
theorem parseAsJSON_empty_string_becomes_mapping :
    sampleLibs.jsonValid "" = false ∧
    (∀ es, sampleLibs.yamlUnmarshal "" ≠ .ok (some es)) ∧
    parseAsJSON sampleLibs 2 (.str "") Globals.initial =
      some (.map (some []), Globals.initial) ∧
    ¬ Returns sampleLibs (.str "") (.str "") ∧
    parseAsJSON sampleLibs 2 (.str "hello") Globals.initial =
      some (.str "hello", Globals.initial) := by
  have he : parseAsJSON sampleLibs 2 (.str "") Globals.initial =
      some (.map (some []), Globals.initial) := rfl
  refine ⟨rfl, ?_, he, ?_, rfl⟩
  · intro es h
    have h' : (Except.ok none : Except String GoMap) = .ok (some es) := h
    cases h'
  · intro h
    have := returns_unique sampleLibs h ⟨2, _, _, he⟩
    cases this

/-- The path of the YAML fallback that does return the string: for a string `s` that is not valid
JSON and for which the YAML decoder reports an error when decoding into a mapping, `parseAsJSON`
returns `s` unchanged, with any fuel. -/
theorem parseAsJSON_yaml_error_unchanged (d : Libs) (s e : String)
    (hv : d.jsonValid s = false) (hu : d.yamlUnmarshal s = .error e) (n : Nat) (g : Globals) :
    parseAsJSON d (n + 1) (.str s) g = some (.str s, deferred (enter d (.str s) g)) ∧
    Returns d (.str s) (.str s) ∧ ∀ r, Returns d (.str s) r → r = .str s := by
  have h1 := parseAsJSON_str_yaml_err d n s e g hv hu
  exact ⟨h1, ⟨n + 1, g, _, h1⟩, fun r hr => returns_unique d hr ⟨n + 1, g, _, h1⟩⟩

/-- The bare scalar `hello` is not valid JSON, decoding it into a mapping is an error, and
`parseAsJSON` returns it unchanged. -/
theorem parseAsJSON_yaml_error_unchanged_witness :
    sampleLibs.jsonValid "hello" = false ∧
    sampleLibs.yamlUnmarshal "hello" = .error "yaml: unmarshal errors" ∧
    parseAsJSON sampleLibs 1 (.str "hello") Globals.initial =
      some (.str "hello", deferred (enter sampleLibs (.str "hello") Globals.initial)) :=
  ⟨rfl, rfl,
    (parseAsJSON_yaml_error_unchanged sampleLibs "hello" "yaml: unmarshal errors" rfl rfl 0
      Globals.initial).1⟩

/-- C4 (YAML mapping fallback): for a string `s` that is not valid JSON and that the YAML decoder
reads as the mapping `m`, the call on `s` returns exactly what the call on `m` returns, and that
is a mapping with the keys of `m`, each value being what `parseAsJSON` returns for the value of
`m` under that key. -/
theorem parseAsJSON_yaml_mapping (d : Libs) (s : String) (m : GoMap)
    (hv : d.jsonValid s = false) (hu : d.yamlUnmarshal s = .ok m) :
    (∀ n g, parseAsJSON d (n + 1) (.str s) g =
        (parseAsJSON d n (.map m) (enter d (.str s) g)).map (fun p => (p.1, deferred p.2))) ∧
    (∀ r, Returns d (.str s) r ↔ Returns d (.map m) r) ∧
    (∀ r, Returns d (.str s) r ↔
      ∃ es, r = .map (some es) ∧
        List.Forall₂ (fun e e' => e'.1 = e.1 ∧ Returns d e.2 e'.2) (m.getD []) es) :=
  ⟨fun n g => parseAsJSON_str_yaml d n s m g hv hu,
    fun r => returns_str_yaml_iff d s m r hv hu,
    fun r => (returns_str_yaml_iff d s m r hv hu).trans (returns_map_iff d m r)⟩

/-- Witness of C4: the string `k: v` is not valid JSON, the YAML decoder reads it as the mapping
with the one key `k`, and `parseAsJSON` returns that mapping. -/
theorem parseAsJSON_yaml_mapping_witness :
    sampleLibs.jsonValid "k: v" = false ∧
    sampleLibs.yamlUnmarshal "k: v" = .ok (some [("k", .str "v")]) ∧
    parseAsJSON sampleLibs 3 (.str "k: v") Globals.initial =
      some (.map (some [("k", .str "v")]), Globals.initial) ∧
    Returns sampleLibs (.map (some [("k", .str "v")])) (.map (some [("k", .str "v")])) :=
  ⟨rfl, rfl, rfl,
    ((parseAsJSON_yaml_mapping sampleLibs "k: v" (some [("k", .str "v")]) rfl rfl).2.1 _).1
      ⟨3, Globals.initial, Globals.initial, rfl⟩⟩

theorem forall₂_keys {R : String × Value → String × Value → Prop}
    (hR : ∀ e e', R e e' → e'.1 = e.1) :
    ∀ {xs ys : List (String × Value)}, List.Forall₂ R xs ys →
      ys.map Prod.fst = xs.map Prod.fst
  | _, _, List.Forall₂.nil => rfl
  | _, _, List.Forall₂.cons h t => by
    simp only [List.map_cons, hR _ _ h, forall₂_keys hR t]

theorem forall₂_lookup {R : Value → Value → Prop} (k : String) :
    ∀ {xs ys : List (String × Value)},
      List.Forall₂ (fun e e' => e'.1 = e.1 ∧ R e.2 e'.2) xs ys →
        (xs.lookup k = none ∧ ys.lookup k = none) ∨
          ∃ v v', xs.lookup k = some v ∧ ys.lookup k = some v' ∧ R v v'
  | _, _, List.Forall₂.nil => Or.inl ⟨rfl, rfl⟩
  | (a, v) :: _, (a', v') :: _, List.Forall₂.cons h t => by
    obtain ⟨ha, hv⟩ := h
    simp only at ha hv
    subst ha
    simp only [List.lookup_cons]
    cases k == a' with
    | true => exact Or.inr ⟨v, v', rfl, rfl, hv⟩
    | false => exact forall₂_lookup k t

/-- C5 (structure preservation for mappings): `parseAsJSON` returns `r` for the mapping `m`
exactly when `r` is a mapping whose entries pair off with the entries of `m`, each under the same
key and holding what `parseAsJSON` returns for the value of `m`; the key list of the result is
the key list of `m`, and looking a key up in the result finds nothing when `m` has no such key and
otherwise finds what `parseAsJSON` returns for `m[k]`. -/
theorem parseAsJSON_mapping_structure (d : Libs) (m : GoMap) (r : Value) :
    (Returns d (.map m) r ↔
      ∃ es, r = .map (some es) ∧ es.map Prod.fst = (m.getD []).map Prod.fst ∧
        List.Forall₂ (fun e e' => e'.1 = e.1 ∧ Returns d e.2 e'.2) (m.getD []) es) ∧
    (∀ es, Returns d (.map m) (.map (some es)) → ∀ k,
      ((m.getD []).lookup k = none ∧ es.lookup k = none) ∨
        ∃ v v', (m.getD []).lookup k = some v ∧ es.lookup k = some v' ∧ Returns d v v') := by
  constructor
  · rw [returns_map_iff]
    constructor
    · rintro ⟨es, hr, h⟩
      exact ⟨es, hr, forall₂_keys (fun _ _ hab => hab.1) h, h⟩
    · rintro ⟨es, hr, _, h⟩
      exact ⟨es, hr, h⟩
  · intro es h k
    rw [returns_map_iff] at h
    obtain ⟨es', hr, h⟩ := h
    obtain rfl : es = es' := by injection hr with h1; injection h1
    exact forall₂_lookup k h

/-- Witness of C5: the mapping with keys `x` and `y` keeps both keys; the JSON text under `x`
becomes the number 5, the plain word under `y` stays. -/
theorem parseAsJSON_mapping_structure_witness :
    Returns sampleLibs (.map (some [("x", .str "5"), ("y", .str "hello")]))
      (.map (some [("x", .number 5), ("y", .str "hello")])) ∧
    ∃ es, Value.map (some [("x", .number 5), ("y", .str "hello")]) = .map (some es) ∧
      es.map Prod.fst = ["x", "y"] ∧
      List.Forall₂ (fun e e' => e'.1 = e.1 ∧ Returns sampleLibs e.2 e'.2)
        [("x", .str "5"), ("y", .str "hello")] es :=
  ⟨⟨3, Globals.initial, Globals.initial, rfl⟩,
    (parseAsJSON_mapping_structure sampleLibs (some [("x", .str "5"), ("y", .str "hello")])
      (.map (some [("x", .number 5), ("y", .str "hello")]))).1.1
      ⟨3, Globals.initial, Globals.initial, rfl⟩⟩

/-- C6 (structure preservation for sequences): `parseAsJSON` returns `r` for the sequence `xs`
exactly when `r` is a sequence of the same length whose element at every index is what
`parseAsJSON` returns for the element of `xs` at that index. -/
theorem parseAsJSON_sequence_structure (d : Libs) (xs : List Value) (r : Value) :
    Returns d (.seq xs) r ↔
      ∃ ys, r = .seq ys ∧ ys.length = xs.length ∧
        ∀ (i : Nat) (h₁ : i < xs.length) (h₂ : i < ys.length),
          Returns d (xs.get ⟨i, h₁⟩) (ys.get ⟨i, h₂⟩) := by
  rw [returns_seq_iff]
  constructor
  · rintro ⟨ys, hr, h⟩
    rw [List.forall₂_iff_get] at h
    exact ⟨ys, hr, h.1.symm, h.2⟩
  · rintro ⟨ys, hr, hl, h⟩
    exact ⟨ys, hr, List.forall₂_iff_get.2 ⟨hl.symm, h⟩⟩

/-- Witness of C6: a sequence of three elements stays a sequence of three elements, each
normalized in place. -/
theorem parseAsJSON_sequence_structure_witness :
    Returns sampleLibs (.seq [.str "5", .str "hello", .null])
      (.seq [.number 5, .str "hello", .null]) ∧
    ∃ ys, Value.seq [.number 5, .str "hello", .null] = .seq ys ∧ ys.length = 3 ∧
      ∀ (i : Nat) (h₁ : i < 3) (h₂ : i < ys.length),
        Returns sampleLibs ([Value.str "5", .str "hello", .null].get ⟨i, h₁⟩) (ys.get ⟨i, h₂⟩) :=
  ⟨⟨3, Globals.initial, Globals.initial, rfl⟩,
    (parseAsJSON_sequence_structure sampleLibs [.str "5", .str "hello", .null]
      (.seq [.number 5, .str "hello", .null])).1 ⟨3, Globals.initial, Globals.initial, rfl⟩⟩

/-- C7 (non-string scalars are fixed points): for `nil`, every boolean, every number, and every
value of a dynamic type the type switch does not name, `parseAsJSON` returns the value itself,
with any fuel and from any state. -/
theorem parseAsJSON_scalar_fixed (d : Libs) (n : Nat) (g : Globals) :
    parseAsJSON d (n + 1) .null g = some (.null, deferred (enter d .null g)) ∧
    (∀ b, parseAsJSON d (n + 1) (.bool b) g = some (.bool b, deferred (enter d (.bool b) g))) ∧
    (∀ x, parseAsJSON d (n + 1) (.number x) g =
      some (.number x, deferred (enter d (.number x) g))) ∧
    (∀ t, parseAsJSON d (n + 1) (.other t) g =
      some (.other t, deferred (enter d (.other t) g))) :=
  ⟨rfl, fun _ => rfl, fun _ => rfl, fun _ => rfl⟩

/-- C8 (nested decoding): when the libraries read `{"b": "1"}` as the JSON object whose field
`b` is the string `1`, and `1` as the JSON number 1, `parseAsJSON` turns the mapping
`{"a": "{\"b\": \"1\"}"}` into `{"a": {"b": 1}}`.  In general a string under a key that holds
JSON text of an object whose field holds JSON text again is decoded at both levels. -/
theorem parseAsJSON_nested_decoding (d : Libs)
    (h1 : d.jsonValid "\x7b\"b\": \"1\"\x7d" = true)
    (h2 : d.jsonUnmarshal "\x7b\"b\": \"1\"\x7d" = .ok (.map (some [("b", .str "1")])))
    (h3 : d.jsonValid "1" = true) (h4 : d.jsonUnmarshal "1" = .ok (.number 1)) :
    (∀ g, ∃ g', parseAsJSON d 5 (.map (some [("a", .str "\x7b\"b\": \"1\"\x7d")])) g =
      some (.map (some [("a", .map (some [("b", .number 1)]))]), g')) ∧
    (∀ (a b s t : String) (w r : Value), d.jsonValid s = true →
      d.jsonUnmarshal s = .ok (.map (some [(b, .str t)])) → d.jsonValid t = true →
      d.jsonUnmarshal t = .ok w → Returns d w r →
        Returns d (.map (some [(a, .str s)])) (.map (some [(a, .map (some [(b, r)]))]))) := by
  constructor
  · intro g
    rw [parseAsJSON_map]
    simp only [Option.getD_some, rangeMap]
    rw [parseAsJSON_str_json d 3 _ _ _ h1 h2, parseAsJSON_map]
    simp only [Option.getD_some, rangeMap]
    rw [parseAsJSON_str_json d 1 _ _ _ h3 h4, parseAsJSON_number]
    exact ⟨_, rfl⟩
  · intro a b s t w r hs1 hs2 ht1 ht2 hw
    refine (returns_map_iff d _ _).2 ⟨_, rfl, List.Forall₂.cons ⟨rfl, ?_⟩ List.Forall₂.nil⟩
    refine (returns_str_json_iff d s _ _ hs1 hs2).2 ?_
    refine (returns_map_iff d _ _).2 ⟨_, rfl, List.Forall₂.cons ⟨rfl, ?_⟩ List.Forall₂.nil⟩
    exact (returns_str_json_iff d t _ _ ht1 ht2).2 hw

/-- Witness of C8: the sample libraries read the two texts as stated, and the nested mapping
comes out decoded at both levels. -/
theorem parseAsJSON_nested_decoding_witness :
    sampleLibs.jsonUnmarshal "\x7b\"b\": \"1\"\x7d" = .ok (.map (some [("b", .str "1")])) ∧
    sampleLibs.jsonUnmarshal "1" = .ok (.number 1) ∧
    ∃ g', parseAsJSON sampleLibs 5 (.map (some [("a", .str "\x7b\"b\": \"1\"\x7d")]))
      Globals.initial = some (.map (some [("a", .map (some [("b", .number 1)]))]), g') :=
  ⟨rfl, rfl, (parseAsJSON_nested_decoding sampleLibs rfl rfl rfl rfl).1 Globals.initial⟩

/-- C9 (totality and termination): with decoders under which every string leaf of a decoded value
is strictly shorter than the decoded string, `parseAsJSON` returns a value on every input, given
enough fuel and from every state; no string has itself among the leaves of its decoding; and the
number of embedded-encoding layers of a value is bounded by any strict bound on the lengths of its
string leaves. -/
theorem parseAsJSON_total (d : Libs) (hs : Shrinks d) :
    (∀ v g, ∃ n r g', parseAsJSON d n v g = some (r, g')) ∧
    (∀ s w, Decodes d s w → ¬ Leaf w s) ∧
    (∀ v N k, (∀ t, Leaf v t → t.length < N) → Layers d v k → k ≤ N) := by
  refine ⟨fun v g => ?_, fun s w hd hl => ?_, fun v N k hb hl => layers_le_bound hs hl N hb⟩
  · obtain ⟨N, hN⟩ := leaf_bound v
    obtain ⟨r, hr⟩ := returns_of_bound d hs N v hN
    obtain ⟨n, hn⟩ := returns_fuel d hr
    obtain ⟨g', e⟩ := hn n (le_refl n) g
    exact ⟨n, r, g', e⟩
  · exact lt_irrefl _ (decodes_shrinks hs hd s hl)

/-- Witness of C9: the sample libraries shrink, and the call on the text `[1,2,3]` returns. -/
theorem parseAsJSON_total_witness :
    Shrinks sampleLibs ∧
    ∃ n r g', parseAsJSON sampleLibs n (.str "[1,2,3]") Globals.initial = some (r, g') :=
  ⟨sampleLibs_shrinks,
    (parseAsJSON_total sampleLibs sampleLibs_shrinks).1 (.str "[1,2,3]") Globals.initial⟩

/-! ## The extractor -/

/-- C10 (no-op filtering): a resource change whose action list is empty or starts with `no-op`
makes `processResourceChange` return the empty record with `present = false`, without touching
the state and whatever the other fields, the flag and the fuel are. -/
theorem processResourceChange_noop (d : Libs) (color : Bool) (fuel : Nat)
    (resourceChange : ResourceChange) (g : Globals)
    (h : resourceChange.Change.Actions = [] ∨
      resourceChange.Change.Actions.head? = some "no-op") :
    processResourceChange d color fuel resourceChange g =
      some (.returned ProcessedResource.zero false, g) := by
  unfold processResourceChange
  rw [if_pos]
  rcases h with h | h
  · exact Or.inl (by rw [h]; rfl)
  · exact Or.inr h

/-- Witness of C10: a change with actions `no-op`, `create` and non-empty states is filtered
out. -/
theorem processResourceChange_noop_witness :
    processResourceChange sampleLibs true 0
      { Address := "aws_s3_bucket.b", Typ := "aws_s3_bucket", Name := "b",
        Change := { Actions := ["no-op", "create"], Before := some [("x", .str "5")],
                    After := some [("x", .str "hello")] } } Globals.initial =
      some (.returned ProcessedResource.zero false, Globals.initial) :=
  processResourceChange_noop sampleLibs true 0 _ Globals.initial (Or.inr rfl)

/-! ## The normalizer: trace, leftovers, edge cases -/

theorem parseAsJSON_none_state (d : Libs) (n : Nat) (v : Value) (g h : Globals)
    (e : parseAsJSON d n v g = none) : parseAsJSON d n v h = none := by
  cases e' : parseAsJSON d n v h with
  | none => rfl
  | some p =>
    obtain ⟨g', e''⟩ := parseAsJSON_state d n v h p.1 p.2 e' g
    rw [e] at e''
    cases e''

theorem parseAsJSON_map_result (d : Libs) (fuel : Nat) (m : GoMap) (g : Globals) (r : Value)
    (g' : Globals) (e : parseAsJSON d fuel (.map m) g = some (r, g')) :
    ∃ es, r = .map (some es) ∧
      List.Forall₂ (fun x y => y.1 = x.1 ∧ ∃ h h', parseAsJSON d (fuel - 1) x.2 h = some (y.2, h'))
        (m.getD []) es := by
  cases fuel with
  | zero => simp [parseAsJSON_zero] at e
  | succ n =>
    rw [parseAsJSON_map, Option.map_eq_some'] at e
    obtain ⟨⟨ys, g1⟩, hp, hr⟩ := e
    exact ⟨ys, (Prod.mk.inj hr).1.symm, rangeMap_forall₂ _ _ _ _ _ hp⟩

/-- C14 (the trace does not affect the result): with the same fuel, the value `parseAsJSON`
returns for `v`, or its not returning, is the same from any two states, whatever their `spaces`,
their `turnOnIndentLogging` and their output so far. -/
theorem parseAsJSON_trace_independent (d : Libs) (n : Nat) (v : Value) (g h : Globals) :
    (parseAsJSON d n v g).map Prod.fst = (parseAsJSON d n v h).map Prod.fst := by
  cases e : parseAsJSON d n v g with
  | none => rw [parseAsJSON_none_state d n v g h e]
  | some p =>
    obtain ⟨h', e'⟩ := parseAsJSON_state d n v g p.1 p.2 e h
    rw [e']
    rfl

/-- C18 (empty YAML document): for a string that is not valid JSON and on which the YAML decoder
reports no error while leaving the target mapping nil, `parseAsJSON` returns the empty mapping,
not the string. -/
theorem parseAsJSON_empty_yaml (d : Libs) (s : String) (hv : d.jsonValid s = false)
    (hu : d.yamlUnmarshal s = .ok none) (n : Nat) (g : Globals) :
    parseAsJSON d (n + 2) (.str s) g =
      some (.map (some []), deferred (deferred (enter d (.map none) (enter d (.str s) g)))) ∧
    Value.map (some []) ≠ .str s := by
  refine ⟨?_, fun h => by cases h⟩
  rw [parseAsJSON_str_yaml d (n + 1) s none g hv hu, parseAsJSON_map]
  rfl

/-- Witness of C18: the empty string with the sample libraries. -/
theorem parseAsJSON_empty_yaml_witness :
    sampleLibs.jsonValid "" = false ∧ sampleLibs.yamlUnmarshal "" = .ok none ∧
    parseAsJSON sampleLibs 2 (.str "") Globals.initial =
      some (.map (some []), deferred (deferred (enter sampleLibs (.map none)
        (enter sampleLibs (.str "") Globals.initial)))) :=
  ⟨rfl, rfl, (parseAsJSON_empty_yaml sampleLibs "" rfl rfl 0 Globals.initial).1⟩

/-- C19 (valid JSON that cannot be decoded): for a string that passes the validity check and
whose decoding fails, `parseAsJSON` logs the failure and returns the string unchanged, and it
does so with any YAML decoder in place of the given one: the fallback is not attempted. -/
theorem parseAsJSON_undecodable_json (d : Libs) (s e : String) (hv : d.jsonValid s = true)
    (hu : d.jsonUnmarshal s = .error e) (n : Nat) (g : Globals) :
    parseAsJSON d (n + 1) (.str s) g =
      some (.str s, deferred (logPrintf ("Error unmarshalling JSON: " ++ s ++ "\n")
        (enter d (.str s) g))) ∧
    ∀ y, parseAsJSON { d with yamlUnmarshal := y } (n + 1) (.str s) g =
      parseAsJSON d (n + 1) (.str s) g := by
  have h1 := parseAsJSON_str_json_err d n s e g hv hu
  refine ⟨h1, fun y => ?_⟩
  rw [h1]
  exact parseAsJSON_str_json_err { d with yamlUnmarshal := y } n s e g hv hu

/-- Witness of C19: the text `1e999` with the sample libraries. -/
theorem parseAsJSON_undecodable_json_witness :
    sampleLibs.jsonValid "1e999" = true ∧
    sampleLibs.jsonUnmarshal "1e999" = .error "json: cannot unmarshal" ∧
    parseAsJSON sampleLibs 1 (.str "1e999") Globals.initial =
      some (.str "1e999", deferred (logPrintf ("Error unmarshalling JSON: " ++ "1e999" ++ "\n")
        (enter sampleLibs (.str "1e999") Globals.initial))) :=
  ⟨rfl, rfl,
    (parseAsJSON_undecodable_json sampleLibs "1e999" "json: cannot unmarshal" rfl rfl 0
      Globals.initial).1⟩

theorem forall₂_mem_right {α β : Type} {R : α → β → Prop} :
    ∀ {xs : List α} {ys : List β}, List.Forall₂ R xs ys → ∀ y ∈ ys, ∃ x ∈ xs, R x y
  | _, _, List.Forall₂.nil, y, hy => absurd hy (List.not_mem_nil y)
  | _, _, List.Forall₂.cons h t, y, hy => by
    rcases List.mem_cons.1 hy with rfl | hy
    · exact ⟨_, List.mem_cons_self _ _, h⟩
    · obtain ⟨x, hx, hr⟩ := forall₂_mem_right t y hy
      exact ⟨x, List.mem_cons_of_mem _ hx, hr⟩

/-- Every string leaf of a value `parseAsJSON` returns is a string the decoders refused. -/
theorem result_leaf_refused (d : Libs) :
    ∀ (n : Nat) (v : Value) (g : Globals) (r : Value) (g' : Globals),
      parseAsJSON d n v g = some (r, g') → ∀ t, Leaf r t →
        (d.jsonValid t = true ∧ ∃ e, d.jsonUnmarshal t = .error e) ∨
        (d.jsonValid t = false ∧ ∃ e, d.yamlUnmarshal t = .error e)
  | 0, v, g, r, g', e => by simp [parseAsJSON_zero] at e
  | n + 1, v, g, r, g', e => by
    have ih := result_leaf_refused d n
    intro t ht
    cases v with
    | null =>
      rw [parseAsJSON_null] at e
      rw [← (Prod.mk.inj (Option.some.inj e)).1] at ht
      cases ht
    | bool b =>
      rw [parseAsJSON_bool] at e
      rw [← (Prod.mk.inj (Option.some.inj e)).1] at ht
      cases ht
    | number y =>
      rw [parseAsJSON_number] at e
      rw [← (Prod.mk.inj (Option.some.inj e)).1] at ht
      cases ht
    | other y =>
      rw [parseAsJSON_other] at e
      rw [← (Prod.mk.inj (Option.some.inj e)).1] at ht
      cases ht
    | anyMap y =>
      rw [parseAsJSON_anyMap] at e
      rw [← (Prod.mk.inj (Option.some.inj e)).1] at ht
      cases ht
    | seq xs =>
      rw [parseAsJSON_seq, Option.map_eq_some'] at e
      obtain ⟨⟨ys, g1⟩, hp, hr⟩ := e
      rw [← (Prod.mk.inj hr).1] at ht
      obtain ⟨y, hy, hl⟩ := leaf_seq ht
      obtain ⟨x, _, h0, h1, e0⟩ := forall₂_mem_right (rangeSlice_forall₂ _ _ _ _ _ hp) y hy
      exact ih x h0 y h1 e0 t hl
    | map m =>
      rw [parseAsJSON_map, Option.map_eq_some'] at e
      obtain ⟨⟨ys, g1⟩, hp, hr⟩ := e
      rw [← (Prod.mk.inj hr).1] at ht
      obtain ⟨k, y, hy, hl⟩ := leaf_map ht
      obtain ⟨x, _, _, h0, h1, e0⟩ :=
        forall₂_mem_right (rangeMap_forall₂ _ _ _ _ _ hp) (k, y) hy
      exact ih x.2 h0 y h1 e0 t hl
    | str s =>
      cases hv : d.jsonValid s with
      | true =>
        cases hu : d.jsonUnmarshal s with
        | error er =>
          rw [parseAsJSON_str_json_err _ _ _ _ _ hv hu] at e
          rw [← (Prod.mk.inj (Option.some.inj e)).1] at ht
          cases ht
          exact Or.inl ⟨hv, er, hu⟩
        | ok w =>
          rw [parseAsJSON_str_json _ _ _ _ _ hv hu, Option.map_eq_some'] at e
          obtain ⟨⟨r1, g1⟩, hp, hr⟩ := e
          obtain rfl : r1 = r := (Prod.mk.inj hr).1
          exact ih w _ r1 g1 hp t ht
      | false =>
        cases hu : d.yamlUnmarshal s with
        | error er =>
          rw [parseAsJSON_str_yaml_err _ _ _ _ _ hv hu] at e
          rw [← (Prod.mk.inj (Option.some.inj e)).1] at ht
          cases ht
          exact Or.inr ⟨hv, er, hu⟩
        | ok w =>
          rw [parseAsJSON_str_yaml _ _ _ _ _ hv hu, Option.map_eq_some'] at e
          obtain ⟨⟨r1, g1⟩, hp, hr⟩ := e
          obtain rfl : r1 = r := (Prod.mk.inj hr).1
          exact ih (.map w) _ r1 g1 hp t ht

/-- C17 as stated fails, at two inputs.  The text `1e999` is returned as it is, so the result has
at its root a string that is valid JSON.  The YAML text with the nested entry `1: "[1,2,3]"`
decodes to a mapping whose value under `a` is a `map[interface{}]interface{}`; the type switch has
no case for it, so it is returned as it is, and the string `[1,2,3]`, which is valid JSON and
decodes, occurs as a mapping value of the result. -/
theorem parseAsJSON_fully_decoded_counterexample :
    (parseAsJSON sampleLibs 1 (.str "1e999") Globals.initial =
      some (.str "1e999", { Globals.initial with
        logged := ["Error unmarshalling JSON: 1e999\n"] }) ∧
      Occurs (.str "1e999") "1e999" ∧ sampleLibs.jsonValid "1e999" = true) ∧
    (parseAsJSON nestedLibs 3 (.str "a:\n  1: \"[1,2,3]\"") Globals.initial =
      some (.map (some [("a", .anyMap [(.other 1, .str "[1,2,3]")])]), Globals.initial) ∧
      Occurs (.map (some [("a", .anyMap [(.other 1, .str "[1,2,3]")])])) "[1,2,3]" ∧
      nestedLibs.jsonValid "[1,2,3]" = true ∧
      nestedLibs.jsonUnmarshal "[1,2,3]" = .ok (.seq [.number 1, .number 2, .number 3])) :=
  ⟨⟨rfl, Occurs.root "1e999", rfl⟩,
    ⟨rfl,
      Occurs.entry (List.mem_singleton.2 rfl)
        (Occurs.anyEntry (List.mem_singleton.2 rfl) (Occurs.root "[1,2,3]")),
      rfl, rfl⟩⟩

/-- C17 (amended): every string that is the root of a value `parseAsJSON` returns, or is reached
from the root through string-keyed mappings and sequences only, as a mapping value or a sequence
element, is one no decoding applies to: it is valid JSON that the JSON decoder rejects, or it is
not valid JSON and the YAML decoder reports an error on it.  Mapping keys are not reinterpreted:
the result for a mapping has the key list of the mapping.  (The strings held inside a
`map[interface{}]interface{}` are outside this statement.) -/
theorem parseAsJSON_fully_decoded (d : Libs) (n : Nat) (v : Value) (g : Globals) (r : Value)
    (g' : Globals) (e : parseAsJSON d n v g = some (r, g')) :
    (∀ t, Leaf r t →
      (d.jsonValid t = true ∧ ∃ er, d.jsonUnmarshal t = .error er) ∨
      (d.jsonValid t = false ∧ ∃ er, d.yamlUnmarshal t = .error er)) ∧
    (∀ t, Leaf r t → ∀ w, ¬ Decodes d t w) ∧
    (∀ m, v = .map m → ∃ es, r = .map (some es) ∧
      es.map Prod.fst = (m.getD []).map Prod.fst) := by
  have h1 := result_leaf_refused d n v g r g' e
  refine ⟨h1, fun t ht w hd => ?_, fun m hm => ?_⟩
  · rcases h1 t ht with ⟨hv, er, hu⟩ | ⟨hv, er, hu⟩
    · cases hd with
      | json hv' hu' => rw [hu] at hu'; cases hu'
      | yaml hv' hu' => rw [hv] at hv'; cases hv'
    · cases hd with
      | json hv' hu' => rw [hv] at hv'; cases hv'
      | yaml hv' hu' => rw [hu] at hu'; cases hu'
  · subst hm
    obtain ⟨es, hr, hf⟩ := parseAsJSON_map_result d n m g r g' e
    exact ⟨es, hr, forall₂_keys (fun _ _ hab => hab.1) hf⟩

/-- Witness of C17 (amended): a mapping with a JSON text, a plain word and the nested YAML text as
values.  The text becomes the number 5; the word, the only string reached through string-keyed
mappings and sequences, is refused by both decoders; the string inside the
`map[interface{}]interface{}` is not among those the statement is about. -/
theorem parseAsJSON_fully_decoded_witness :
    parseAsJSON nestedLibs 5
      (.map (some [("x", .str "5"), ("y", .str "hello"), ("n", .str "a:\n  1: \"[1,2,3]\"")]))
      Globals.initial =
        some (.map (some [("x", .number 5), ("y", .str "hello"),
          ("n", .map (some [("a", .anyMap [(.other 1, .str "[1,2,3]")])]))]),
          Globals.initial) ∧
    Leaf (.map (some [("x", .number 5), ("y", .str "hello"),
      ("n", .map (some [("a", .anyMap [(.other 1, .str "[1,2,3]")])]))])) "hello" ∧
    (∀ t, Leaf (.map (some [("x", .number 5), ("y", .str "hello"),
        ("n", .map (some [("a", .anyMap [(.other 1, .str "[1,2,3]")])]))])) t →
      (nestedLibs.jsonValid t = true ∧ ∃ er, nestedLibs.jsonUnmarshal t = .error er) ∨
      (nestedLibs.jsonValid t = false ∧ ∃ er, nestedLibs.yamlUnmarshal t = .error er)) :=
  ⟨rfl, Leaf.entry (k := "y") (by simp) (Leaf.root "hello"),
    (parseAsJSON_fully_decoded nestedLibs 5
      (.map (some [("x", .str "5"), ("y", .str "hello"), ("n", .str "a:\n  1: \"[1,2,3]\"")]))
      Globals.initial
      (.map (some [("x", .number 5), ("y", .str "hello"),
        ("n", .map (some [("a", .anyMap [(.other 1, .str "[1,2,3]")])]))]))
      Globals.initial rfl).1⟩

/-! ## The recursion-depth counter -/

theorem wrapInt_inRange (x : Int) : InRange (wrapInt x) := by
  unfold InRange wrapInt
  constructor <;> omega

theorem wrapInt_of_inRange {x : Int} (h : InRange x) : wrapInt x = x := by
  unfold InRange at h
  unfold wrapInt
  omega

theorem wrapInt_succ_pred {x : Int} (h : InRange x) : wrapInt (wrapInt (x + 1) - 1) = x := by
  unfold InRange at h
  unfold wrapInt
  omega

theorem wrapInt_add (a b : Int) : wrapInt (wrapInt a + b) = wrapInt (a + b) := by
  unfold wrapInt
  omega

theorem printIndent_spaces (g : Globals) : (printIndent g).spaces = g.spaces := by
  unfold printIndent
  split <;> rfl

theorem enter_spaces (d : Libs) (v : Value) (g : Globals) :
    (enter d v g).spaces = wrapInt (g.spaces + 1) := by
  unfold enter
  simp only
  split <;> simp only [printIndent_spaces]

theorem deferred_spaces (g : Globals) : (deferred g).spaces = wrapInt (g.spaces - 1) := by
  unfold deferred
  simp only
  split <;> simp only [printIndent_spaces]

theorem deferred_enter_spaces (d : Libs) (v : Value) (g g1 : Globals) (hg : InRange g.spaces)
    (h1 : g1.spaces = (enter d v g).spaces) : (deferred g1).spaces = g.spaces := by
  rw [deferred_spaces, h1, enter_spaces, wrapInt_succ_pred hg]

theorem rangeSlice_spaces {f : Value → Globals → Option (Value × Globals)}
    (hf : ∀ v g r g', InRange g.spaces → f v g = some (r, g') → g'.spaces = g.spaces) :
    ∀ (xs : List Value) (g : Globals) (ys : List Value) (g' : Globals), InRange g.spaces →
      rangeSlice f xs g = some (ys, g') → g'.spaces = g.spaces
  | [], g, ys, g', _, h => by
    rw [rangeSlice_nil_eq_some] at h
    rw [h.2]
  | x :: rest, g, ys, g', hg, h => by
    rw [rangeSlice_cons_eq_some] at h
    obtain ⟨r, g1, rs, h1, h2, _⟩ := h
    have e1 := hf _ _ _ _ hg h1
    rw [← e1]
    exact rangeSlice_spaces hf rest g1 rs g' (by rw [e1]; exact hg) h2

theorem rangeMap_spaces {f : Value → Globals → Option (Value × Globals)}
    (hf : ∀ v g r g', InRange g.spaces → f v g = some (r, g') → g'.spaces = g.spaces) :
    ∀ (xs : List (String × Value)) (g : Globals) (ys : List (String × Value)) (g' : Globals),
      InRange g.spaces → rangeMap f xs g = some (ys, g') → g'.spaces = g.spaces
  | [], g, ys, g', _, h => by
    rw [rangeMap_nil_eq_some] at h
    rw [h.2]
  | (k, x) :: rest, g, ys, g', hg, h => by
    rw [rangeMap_cons_eq_some] at h
    obtain ⟨r, g1, rs, h1, h2, _⟩ := h
    have e1 := hf _ _ _ _ hg h1
    rw [← e1]
    exact rangeMap_spaces hf rest g1 rs g' (by rw [e1]; exact hg) h2

/-- A call that returns leaves `spaces` as it found it. -/
theorem parseAsJSON_spaces (d : Libs) :
    ∀ (n : Nat) (v : Value) (g : Globals) (r : Value) (g' : Globals), InRange g.spaces →
      parseAsJSON d n v g = some (r, g') → g'.spaces = g.spaces
  | 0, v, g, r, g', _, e => by simp [parseAsJSON_zero] at e
  | n + 1, v, g, r, g', hg, e => by
    have ih := parseAsJSON_spaces d n
    have hin : InRange (enter d v g).spaces := by rw [enter_spaces]; exact wrapInt_inRange _
    cases v with
    | null =>
      rw [parseAsJSON_null] at e
      rw [← (Prod.mk.inj (Option.some.inj e)).2]
      exact deferred_enter_spaces d _ g _ hg rfl
    | bool b =>
      rw [parseAsJSON_bool] at e
      rw [← (Prod.mk.inj (Option.some.inj e)).2]
      exact deferred_enter_spaces d _ g _ hg rfl
    | number y =>
      rw [parseAsJSON_number] at e
      rw [← (Prod.mk.inj (Option.some.inj e)).2]
      exact deferred_enter_spaces d _ g _ hg rfl
    | other y =>
      rw [parseAsJSON_other] at e
      rw [← (Prod.mk.inj (Option.some.inj e)).2]
      exact deferred_enter_spaces d _ g _ hg rfl
    | anyMap y =>
      rw [parseAsJSON_anyMap] at e
      rw [← (Prod.mk.inj (Option.some.inj e)).2]
      exact deferred_enter_spaces d _ g _ hg rfl
    | seq xs =>
      rw [parseAsJSON_seq, Option.map_eq_some'] at e
      obtain ⟨⟨ys, g1⟩, hp, hr⟩ := e
      rw [← (Prod.mk.inj hr).2]
      exact deferred_enter_spaces d _ g _ hg (rangeSlice_spaces ih _ _ _ _ hin hp)
    | map m =>
      rw [parseAsJSON_map, Option.map_eq_some'] at e
      obtain ⟨⟨ys, g1⟩, hp, hr⟩ := e
      rw [← (Prod.mk.inj hr).2]
      exact deferred_enter_spaces d _ g _ hg (rangeMap_spaces ih _ _ _ _ hin hp)
    | str s =>
      cases hv : d.jsonValid s with
      | true =>
        cases hu : d.jsonUnmarshal s with
        | error er =>
          rw [parseAsJSON_str_json_err _ _ _ _ _ hv hu] at e
          rw [← (Prod.mk.inj (Option.some.inj e)).2]
          exact deferred_enter_spaces d (.str s) g _ hg rfl
        | ok w =>
          rw [parseAsJSON_str_json _ _ _ _ _ hv hu, Option.map_eq_some'] at e
          obtain ⟨⟨r1, g1⟩, hp, hr⟩ := e
          rw [← (Prod.mk.inj hr).2]
          exact deferred_enter_spaces d _ g _ hg (ih _ _ _ _ hin hp)
      | false =>
        cases hu : d.yamlUnmarshal s with
        | error er =>
          rw [parseAsJSON_str_yaml_err _ _ _ _ _ hv hu] at e
          rw [← (Prod.mk.inj (Option.some.inj e)).2]
          exact deferred_enter_spaces d _ g _ hg rfl
        | ok w =>
          rw [parseAsJSON_str_yaml _ _ _ _ _ hv hu, Option.map_eq_some'] at e
          obtain ⟨⟨r1, g1⟩, hp, hr⟩ := e
          rw [← (Prod.mk.inj hr).2]
          exact deferred_enter_spaces d _ g _ hg (ih _ _ _ _ hin hp)

/-- A call started `k` levels down starts with `spaces` advanced by `k`. -/
theorem visits_spaces (d : Libs) {fuel : Nat} {v : Value} {g : Globals} {k : Nat} {x : Value}
    {h : Globals} (hv : Visits d fuel v g k x h) :
    InRange g.spaces → h.spaces = wrapInt (g.spaces + k) := by
  induction hv with
  | root fuel v g => intro hg; simpa using (wrapInt_of_inRange hg).symm
  | @json fuel s w g k x h _ _ _ ih =>
    intro _
    have hin : InRange (enter d (.str s) g).spaces := by
      rw [enter_spaces]; exact wrapInt_inRange _
    rw [ih hin, enter_spaces, wrapInt_add]
    congr 1
    push_cast
    ring
  | @yaml fuel s m g k x h _ _ _ ih =>
    intro _
    have hin : InRange (enter d (.str s) g).spaces := by
      rw [enter_spaces]; exact wrapInt_inRange _
    rw [ih hin, enter_spaces, wrapInt_add]
    congr 1
    push_cast
    ring
  | @elem fuel pre post rs y g g1 k x h hp _ ih =>
    intro _
    have hin : InRange (enter d (.seq (pre ++ y :: post)) g).spaces := by
      rw [enter_spaces]; exact wrapInt_inRange _
    have e1 := rangeSlice_spaces (parseAsJSON_spaces d fuel) _ _ _ _ hin hp
    rw [ih (by rw [e1]; exact hin), e1, enter_spaces, wrapInt_add]
    congr 1
    push_cast
    ring
  | @entry fuel m pre post rs key y g g1 k x h _ hp _ ih =>
    intro _
    have hin : InRange (enter d (.map m) g).spaces := by
      rw [enter_spaces]; exact wrapInt_inRange _
    have e1 := rangeMap_spaces (parseAsJSON_spaces d fuel) _ _ _ _ hin hp
    rw [ih (by rw [e1]; exact hin), e1, enter_spaces, wrapInt_add]
    congr 1
    push_cast
    ring

/-- C15 (the counter is restored by call nesting): from a state whose `spaces` is a Go `int`,
a call of `parseAsJSON` that returns leaves `spaces` as it found it, and every call it starts `k`
levels of recursion down starts with `spaces` advanced by `k` (in Go's arithmetic; by exactly `k`
when that does not overflow). -/
theorem parseAsJSON_spaces_restored (d : Libs) (g : Globals) (hg : InRange g.spaces) :
    (∀ fuel v r g', parseAsJSON d fuel v g = some (r, g') → g'.spaces = g.spaces) ∧
    (∀ fuel v k x h, Visits d fuel v g k x h → h.spaces = wrapInt (g.spaces + k)) ∧
    (∀ fuel v k x h, Visits d fuel v g k x h → InRange (g.spaces + k) →
      h.spaces = g.spaces + k) := by
  refine ⟨fun fuel v r g' e => parseAsJSON_spaces d fuel v g r g' hg e,
    fun fuel v k x h hv => visits_spaces d hv hg, fun fuel v k x h hv hk => ?_⟩
  rw [visits_spaces d hv hg, wrapInt_of_inRange hk]

/-- Witness of C15: from the initial state the call on the sequence holding the text `5` returns
with `spaces` at 0 again, and the call on the decoded number, two levels down, starts with
`spaces` at 2. -/
theorem parseAsJSON_spaces_restored_witness :
    InRange Globals.initial.spaces ∧
    parseAsJSON sampleLibs 3 (.seq [.str "5"]) Globals.initial =
      some (.seq [.number 5], Globals.initial) ∧
    (∀ g', parseAsJSON sampleLibs 3 (.seq [.str "5"]) Globals.initial =
      some (.seq [.number 5], g') → g'.spaces = Globals.initial.spaces) ∧
    (enter sampleLibs (.str "5") (enter sampleLibs (.seq [.str "5"]) Globals.initial)).spaces =
      wrapInt (Globals.initial.spaces + (2 : Nat)) :=
  have hg : InRange Globals.initial.spaces := ⟨by decide, by decide⟩
  ⟨hg, rfl, fun g' e => (parseAsJSON_spaces_restored sampleLibs Globals.initial hg).1 3 _ _ g' e,
    (parseAsJSON_spaces_restored sampleLibs Globals.initial hg).2.1 3 (.seq ([] ++ .str "5" :: []))
      2 (.number 5) _
      (@Visits.elem sampleLibs 2 [] [] [] (.str "5") Globals.initial _ 1 (.number 5) _ rfl
        (Visits.json (s := "5") rfl rfl (Visits.root 1 (.number 5) _)))⟩

/-! ## The extractor: what a call returns -/

/-- The value `processResourceChange` returns does not depend on the state it starts in. -/
theorem processResourceChange_state (d : Libs) (color : Bool) (fuel : Nat)
    (rc : ResourceChange) (g : Globals) (c : Completion) (g' : Globals)
    (e : processResourceChange d color fuel rc g = some (c, g')) :
    ∀ h, ∃ h', processResourceChange d color fuel rc h = some (c, h') := by
  intro h
  unfold processResourceChange at e ⊢
  split_ifs at e ⊢ with hc
  · exact ⟨h, by rw [← (Prod.mk.inj (Option.some.inj e)).1]⟩
  · cases hb : parseAsJSON d fuel (.map rc.Change.Before) g with
    | none => simp [hb] at e
    | some p =>
      obtain ⟨vb, g1⟩ := p
      obtain ⟨h1, hb'⟩ := parseAsJSON_state d fuel _ g vb g1 hb h
      simp only [hb] at e
      simp only [hb']
      cases ha : parseAsJSON d fuel (.map rc.Change.After) g1 with
      | none => simp [ha] at e
      | some q =>
        obtain ⟨va, g2⟩ := q
        obtain ⟨h2, ha'⟩ := parseAsJSON_state d fuel _ g1 va g2 ha h1
        simp only [ha] at e
        simp only [ha']
        split at e
        · exact ⟨_, by rw [← (Prod.mk.inj (Option.some.inj e)).1]⟩
        · split at e
          · exact ⟨_, by rw [← (Prod.mk.inj (Option.some.inj e)).1]⟩
          · split at e
            · exact ⟨_, by rw [← (Prod.mk.inj (Option.some.inj e)).1]⟩
            · split at e
              · exact ⟨_, by rw [← (Prod.mk.inj (Option.some.inj e)).1]⟩
              · split at e
                · exact ⟨_, by rw [← (Prod.mk.inj (Option.some.inj e)).1]⟩
                · exact ⟨_, by rw [← (Prod.mk.inj (Option.some.inj e)).1]⟩

theorem processResourceChange_no_panic (d : Libs) (color : Bool) (fuel : Nat)
    (rc : ResourceChange) (g : Globals) (c : Completion) (g' : Globals)
    (e : processResourceChange d color fuel rc g = some (c, g')) : c ≠ .panicked := by
  unfold processResourceChange at e
  split_ifs at e with hc
  · rw [← (Prod.mk.inj (Option.some.inj e)).1]
    exact fun h => by cases h
  · cases hb : parseAsJSON d fuel (.map rc.Change.Before) g with
    | none => simp [hb] at e
    | some p =>
      obtain ⟨vb, g1⟩ := p
      simp only [hb] at e
      cases ha : parseAsJSON d fuel (.map rc.Change.After) g1 with
      | none => simp [ha] at e
      | some q =>
        obtain ⟨va, g2⟩ := q
        simp only [ha] at e
        obtain ⟨b, rfl, _⟩ := parseAsJSON_map_result d fuel _ g vb g1 hb
        obtain ⟨a, rfl, _⟩ := parseAsJSON_map_result d fuel _ g1 va g2 ha
        simp only [assertMap] at e
        split at e
        · rw [← (Prod.mk.inj (Option.some.inj e)).1]; exact fun h => by cases h
        · split at e
          · rw [← (Prod.mk.inj (Option.some.inj e)).1]; exact fun h => by cases h
          · split at e
            · rw [← (Prod.mk.inj (Option.some.inj e)).1]; exact fun h => by cases h
            · split at e
              · rw [← (Prod.mk.inj (Option.some.inj e)).1]; exact fun h => by cases h
              · rw [← (Prod.mk.inj (Option.some.inj e)).1]; exact fun h => by cases h

/-- With decoders that shrink, both states of a resource change are normalized with a common
amount of fuel. -/
theorem normalize_states (d : Libs) (hs : Shrinks d) (before after : GoMap) :
    ∃ n b a, ∀ fuel, n ≤ fuel → ∀ g, ∃ g1 g2,
      parseAsJSON d fuel (.map before) g = some (.map (some b), g1) ∧
      parseAsJSON d fuel (.map after) g1 = some (.map (some a), g2) := by
  obtain ⟨N1, hN1⟩ := leaf_bound (.map before)
  obtain ⟨N2, hN2⟩ := leaf_bound (.map after)
  obtain ⟨vb, hb⟩ := returns_of_bound d hs N1 _ hN1
  obtain ⟨va, ha⟩ := returns_of_bound d hs N2 _ hN2
  obtain ⟨b, rfl, _⟩ := (returns_map_iff d before vb).1 hb
  obtain ⟨a, rfl, _⟩ := (returns_map_iff d after va).1 ha
  obtain ⟨n1, h1⟩ := returns_fuel d hb
  obtain ⟨n2, h2⟩ := returns_fuel d ha
  refine ⟨max n1 n2, b, a, fun fuel hf g => ?_⟩
  obtain ⟨g1, e1⟩ := h1 fuel (le_trans (le_max_left n1 n2) hf) g
  obtain ⟨g2, e2⟩ := h2 fuel (le_trans (le_max_right n1 n2) hf) g1
  exact ⟨g1, g2, e1, e2⟩

/-- C16 (the type assertions cannot fail): whatever `parseAsJSON` returns for a mapping, the nil
mapping included, is a mapping, on which the assertion `.(map[string]any)` succeeds; for the nil
and for the empty mapping it returns the empty mapping; a call of `processResourceChange` that
ends never ends in a panic; and with decoders that shrink the call does end on every resource
change. -/
theorem processResourceChange_assertions (d : Libs) :
    (∀ fuel m g r g', parseAsJSON d fuel (.map m) g = some (r, g') →
      ∃ es, r = .map (some es) ∧ assertMap r = some (some es)) ∧
    (∀ n g, parseAsJSON d (n + 1) (.map none) g =
      some (.map (some []), deferred (enter d (.map none) g))) ∧
    (∀ n g, parseAsJSON d (n + 1) (.map (some [])) g =
      some (.map (some []), deferred (enter d (.map (some [])) g))) ∧
    (∀ color fuel rc g c g', processResourceChange d color fuel rc g = some (c, g') →
      c ≠ .panicked) ∧
    (Shrinks d → ∀ color rc g, ∃ fuel pr ok g',
      processResourceChange d color fuel rc g = some (.returned pr ok, g')) := by
  refine ⟨fun fuel m g r g' e => ?_, fun n g => rfl, fun n g => rfl,
    fun color fuel rc g c g' e => processResourceChange_no_panic d color fuel rc g c g' e,
    fun hs color rc g => ?_⟩
  · obtain ⟨es, rfl, _⟩ := parseAsJSON_map_result d fuel m g r g' e
    exact ⟨es, rfl, rfl⟩
  · obtain ⟨n, b, a, hn⟩ := normalize_states d hs rc.Change.Before rc.Change.After
    obtain ⟨g1, g2, e1, e2⟩ := hn n (le_refl n) g
    cases hc : processResourceChange d color n rc g with
    | none =>
      exfalso
      unfold processResourceChange at hc
      split_ifs at hc
      simp only [e1, e2] at hc
      repeat' split at hc
      all_goals simp at hc
    | some p =>
      obtain ⟨c, g'⟩ := p
      cases c with
      | panicked => exact absurd rfl (processResourceChange_no_panic d color n rc g _ g' hc)
      | returned pr ok => exact ⟨n, pr, ok, g', hc⟩

/-- Witness of C16: the create change, whose before state is absent, is processed without
panic, the absent state coming out as the empty mapping. -/
theorem processResourceChange_assertions_witness :
    processResourceChange planLibs false 3 createChange Globals.initial =
      some (.returned (createRecord (planLibs.diffRender "\x7b\x7d" "\x7b\"x\":5\x7d" false))
        true, Globals.initial) ∧
    Completion.returned (createRecord (planLibs.diffRender "\x7b\x7d" "\x7b\"x\":5\x7d" false))
      true ≠ .panicked :=
  ⟨rfl, (processResourceChange_assertions planLibs).2.2.2.1 false 3 createChange Globals.initial
    (.returned (createRecord (planLibs.diffRender "\x7b\x7d" "\x7b\"x\":5\x7d" false)) true)
    Globals.initial rfl⟩

/-- C11 (extraction of a qualifying change): for a resource change whose action list starts
with an action other than `no-op`, whose states `parseAsJSON` returns `vb` and `va` for, and for
which the two serializations and the two readings by the diff engine succeed,
`processResourceChange` returns, given enough fuel and from every state, `present = true` with the
address of the change, its first action as the operation, `vb` and `va` (both mappings) as the
before and after states, and the rendered diff of the two nodes.  `vb` is fixed by the before
state alone and `va` by the after state alone. -/
theorem processResourceChange_extracts (d : Libs) (color : Bool) (rc : ResourceChange)
    (first : String) (rest : List String) (hact : rc.Change.Actions = first :: rest)
    (hno : first ≠ "no-op") (vb va : Value)
    (hb : Returns d (.map rc.Change.Before) vb) (ha : Returns d (.map rc.Change.After) va)
    (beforeB afterB : String) (hmb : d.jsonMarshal vb = .ok beforeB)
    (hma : d.jsonMarshal va = .ok afterB) (beforeNode afterNode : d.Node)
    (hrb : d.readJsonString beforeB = .ok beforeNode)
    (hra : d.readJsonString afterB = .ok afterNode) :
    ∃ b a, vb = .map (some b) ∧ va = .map (some a) ∧
      ∃ n, ∀ fuel, n ≤ fuel → ∀ g, ∃ g',
        processResourceChange d color fuel rc g =
          some (.returned
            { Address := rc.Address, Operation := first, Before := some b, After := some a,
              Diff := d.diffRender beforeNode afterNode color } true, g') := by
  obtain ⟨b, rfl, _⟩ := (returns_map_iff d _ vb).1 hb
  obtain ⟨a, rfl, _⟩ := (returns_map_iff d _ va).1 ha
  obtain ⟨n1, h1⟩ := returns_fuel d hb
  obtain ⟨n2, h2⟩ := returns_fuel d ha
  refine ⟨b, a, rfl, rfl, max n1 n2, fun fuel hf g => ?_⟩
  obtain ⟨g1, e1⟩ := h1 fuel (le_trans (le_max_left n1 n2) hf) g
  obtain ⟨g2, e2⟩ := h2 fuel (le_trans (le_max_right n1 n2) hf) g1
  refine ⟨g2, ?_⟩
  unfold processResourceChange
  rw [if_neg (by
    rw [hact]
    simp only [List.length_cons, Nat.add_one_ne_zero, List.head?_cons, Option.some.injEq,
      false_or]
    exact hno)]
  simp only [e1, e2, hmb, hma, hrb, hra, assertMap, hact, List.headD_cons]

/-- Witness of C11: the create change of the scenario, with the sample serializer and diff
engine. -/
theorem processResourceChange_extracts_witness :
    ∃ b a, Value.map (some []) = .map (some b) ∧
      Value.map (some [("x", .number 5)]) = .map (some a) ∧
      ∃ n, ∀ fuel, n ≤ fuel → ∀ g, ∃ g',
        processResourceChange planLibs true fuel createChange g =
          some (.returned
            { Address := createChange.Address, Operation := "create", Before := some b,
              After := some a,
              Diff := planLibs.diffRender "\x7b\x7d" "\x7b\"x\":5\x7d" true } true, g') :=
  processResourceChange_extracts planLibs true createChange "create" [] rfl (by decide)
    (.map (some [])) (.map (some [("x", .number 5)]))
    ⟨1, Globals.initial, Globals.initial, rfl⟩ ⟨3, Globals.initial, Globals.initial, rfl⟩
    "\x7b\x7d" "\x7b\"x\":5\x7d" rfl rfl "\x7b\x7d" "\x7b\"x\":5\x7d" rfl rfl

/-! ## The loop of `main` -/

theorem rangeResourceChanges_nil (d : Libs) (color : Bool) (fuel : Nat)
    (acc : List ProcessedResource) (g : Globals) :
    rangeResourceChanges d color fuel [] acc g = some (.completed acc, g) := rfl

theorem rangeResourceChanges_cons (d : Libs) (color : Bool) (fuel : Nat) (rc : ResourceChange)
    (rest : List ResourceChange) (acc : List ProcessedResource) (g g1 : Globals)
    (pr : ProcessedResource) (ok : Bool)
    (e : processResourceChange d color fuel rc g = some (.returned pr ok, g1)) :
    rangeResourceChanges d color fuel (rc :: rest) acc g =
      rangeResourceChanges d color fuel rest (if ok then acc ++ [pr] else acc) g1 := by
  rw [rangeResourceChanges]
  simp only [e]
  cases ok <;> rfl

theorem rangeResourceChanges_cons_panicked (d : Libs) (color : Bool) (fuel : Nat)
    (rc : ResourceChange) (rest : List ResourceChange) (acc : List ProcessedResource)
    (g g1 : Globals) (e : processResourceChange d color fuel rc g = some (.panicked, g1)) :
    rangeResourceChanges d color fuel (rc :: rest) acc g = some (.panicked, g1) := by
  rw [rangeResourceChanges]
  simp only [e]

theorem rangeResourceChanges_cons_none (d : Libs) (color : Bool) (fuel : Nat)
    (rc : ResourceChange) (rest : List ResourceChange) (acc : List ProcessedResource)
    (g : Globals) (e : processResourceChange d color fuel rc g = none) :
    rangeResourceChanges d color fuel (rc :: rest) acc g = none := by
  rw [rangeResourceChanges]
  simp only [e]

/-- The outcome of the loop does not depend on the state it starts in. -/
theorem rangeResourceChanges_state (d : Libs) (color : Bool) (fuel : Nat) :
    ∀ (rcs : List ResourceChange) (acc : List ProcessedResource) (g : Globals)
      (res : LoopResult) (g' : Globals),
      rangeResourceChanges d color fuel rcs acc g = some (res, g') →
        ∀ h, ∃ h', rangeResourceChanges d color fuel rcs acc h = some (res, h')
  | [], acc, g, res, g', e, h => by
    rw [rangeResourceChanges_nil] at e ⊢
    exact ⟨h, by rw [← (Prod.mk.inj (Option.some.inj e)).1]⟩
  | rc :: rest, acc, g, res, g', e, h => by
    cases hp : processResourceChange d color fuel rc g with
    | none => rw [rangeResourceChanges_cons_none d color fuel rc rest acc g hp] at e; cases e
    | some p =>
      obtain ⟨c, g1⟩ := p
      obtain ⟨h1, hp'⟩ := processResourceChange_state d color fuel rc g c g1 hp h
      cases c with
      | panicked =>
        rw [rangeResourceChanges_cons_panicked d color fuel rc rest acc g g1 hp] at e
        rw [rangeResourceChanges_cons_panicked d color fuel rc rest acc h h1 hp']
        exact ⟨h1, by rw [← (Prod.mk.inj (Option.some.inj e)).1]⟩
      | returned pr ok =>
        rw [rangeResourceChanges_cons d color fuel rc rest acc g g1 pr ok hp] at e
        rw [rangeResourceChanges_cons d color fuel rc rest acc h h1 pr ok hp']
        exact rangeResourceChanges_state d color fuel rest _ g1 res g' e h1

/-- The records of the outcomes with `present = true`, in order. -/
theorem filter_outcomes_cons (pr : ProcessedResource) (ok : Bool)
    (os : List (ProcessedResource × Bool)) (acc : List ProcessedResource) :
    (if ok then acc ++ [pr] else acc) ++ ((os.filter (fun o => o.2)).map Prod.fst) =
      acc ++ ((((pr, ok) :: os).filter (fun o => o.2)).map Prod.fst) := by
  cases ok <;> simp

theorem rangeResourceChanges_sound (d : Libs) (color : Bool) (fuel : Nat) :
    ∀ (rcs : List ResourceChange) (acc : List ProcessedResource) (g : Globals)
      (prs : List ProcessedResource) (g' : Globals),
      rangeResourceChanges d color fuel rcs acc g = some (.completed prs, g') →
        ∃ outcomes : List (ProcessedResource × Bool),
          List.Forall₂ (fun rc o => ∃ h h',
            processResourceChange d color fuel rc h = some (.returned o.1 o.2, h')) rcs outcomes ∧
          prs = acc ++ ((outcomes.filter (fun o => o.2)).map Prod.fst)
  | [], acc, g, prs, g', e => by
    rw [rangeResourceChanges_nil] at e
    have := (Prod.mk.inj (Option.some.inj e)).1
    injection this with this
    exact ⟨[], List.Forall₂.nil, by simp [this]⟩
  | rc :: rest, acc, g, prs, g', e => by
    cases hp : processResourceChange d color fuel rc g with
    | none => rw [rangeResourceChanges_cons_none d color fuel rc rest acc g hp] at e; cases e
    | some p =>
      obtain ⟨c, g1⟩ := p
      cases c with
      | panicked =>
        rw [rangeResourceChanges_cons_panicked d color fuel rc rest acc g g1 hp] at e
        have := (Prod.mk.inj (Option.some.inj e)).1
        cases this
      | returned pr ok =>
        rw [rangeResourceChanges_cons d color fuel rc rest acc g g1 pr ok hp] at e
        obtain ⟨os, hf, hprs⟩ := rangeResourceChanges_sound d color fuel rest _ g1 prs g' e
        exact ⟨(pr, ok) :: os, List.Forall₂.cons ⟨g, g1, hp⟩ hf,
          by rw [hprs, filter_outcomes_cons]⟩

theorem rangeResourceChanges_complete (d : Libs) (color : Bool) (fuel : Nat)
    {rcs : List ResourceChange} {outcomes : List (ProcessedResource × Bool)}
    (hf : List.Forall₂ (fun rc o => ∃ h h',
      processResourceChange d color fuel rc h = some (.returned o.1 o.2, h')) rcs outcomes) :
    ∀ (acc : List ProcessedResource) (g : Globals), ∃ g',
      rangeResourceChanges d color fuel rcs acc g =
        some (.completed (acc ++ ((outcomes.filter (fun o => o.2)).map Prod.fst)), g') := by
  induction hf with
  | nil => intro acc g; exact ⟨g, by simp [rangeResourceChanges_nil]⟩
  | @cons rc o rcs os hab _ ih =>
    intro acc g
    obtain ⟨h, h', e⟩ := hab
    obtain ⟨g1, e1⟩ := processResourceChange_state d color fuel rc h _ h' e g
    obtain ⟨g2, e2⟩ := ih (if o.2 then acc ++ [o.1] else acc) g1
    exact ⟨g2, by
      rw [rangeResourceChanges_cons d color fuel rc rcs acc g g1 o.1 o.2 e1, e2,
        filter_outcomes_cons]⟩

/-- A change that is skipped leaves no mark on the outcome of the loop. -/
theorem rangeResourceChanges_skip (d : Libs) (color : Bool) (fuel : Nat) (rc : ResourceChange)
    (pr : ProcessedResource)
    (hrc : ∀ h, ∃ h', processResourceChange d color fuel rc h = some (.returned pr false, h'))
    (post : List ResourceChange) :
    ∀ (pre : List ResourceChange) (acc : List ProcessedResource) (g : Globals)
      (res : LoopResult),
      (∃ g', rangeResourceChanges d color fuel (pre ++ rc :: post) acc g = some (res, g')) ↔
        (∃ g', rangeResourceChanges d color fuel (pre ++ post) acc g = some (res, g'))
  | [], acc, g, res => by
    obtain ⟨g1, e1⟩ := hrc g
    simp only [List.nil_append]
    rw [rangeResourceChanges_cons d color fuel rc post acc g g1 pr false e1]
    simp only [Bool.false_eq_true, if_false]
    constructor
    · rintro ⟨g', e⟩
      exact rangeResourceChanges_state d color fuel post acc g1 res g' e g
    · rintro ⟨g', e⟩
      exact rangeResourceChanges_state d color fuel post acc g res g' e g1
  | x :: pre, acc, g, res => by
    simp only [List.cons_append]
    cases hp : processResourceChange d color fuel x g with
    | none =>
      rw [rangeResourceChanges_cons_none d color fuel x _ acc g hp,
        rangeResourceChanges_cons_none d color fuel x _ acc g hp]
    | some p =>
      obtain ⟨c, g1⟩ := p
      cases c with
      | panicked =>
        rw [rangeResourceChanges_cons_panicked d color fuel x _ acc g g1 hp,
          rangeResourceChanges_cons_panicked d color fuel x _ acc g g1 hp]
      | returned pr' ok =>
        rw [rangeResourceChanges_cons d color fuel x _ acc g g1 pr' ok hp,
          rangeResourceChanges_cons d color fuel x _ acc g g1 pr' ok hp]
        exact rangeResourceChanges_skip d color fuel rc pr hrc post pre _ g1 res

/-- C12 (the batch result is the order-preserving filter of the input): the loop of `main` ends
with the list `prs` exactly when the resource changes have outcomes, one each and in document
order, of which `prs` lists the records with `present = true`, in that order; `main` then prints
the report of `prs`, which starts with the count `len(prs)` (or with `No changes detected` when
there is none).  For the create change followed by the no-op change, with libraries that read
`5` as the number 5 and serialize and read the two states, the list holds the one record of the
create change, its after state being `x` with the number 5. -/
theorem main_filters_in_order (d : Libs) (color : Bool) :
    (∀ fuel rcs prs,
      (∃ g g', rangeResourceChanges d color fuel rcs [] g = some (.completed prs, g')) ↔
        ∃ outcomes : List (ProcessedResource × Bool),
          List.Forall₂ (fun rc o => ∃ h h',
            processResourceChange d color fuel rc h = some (.returned o.1 o.2, h')) rcs outcomes ∧
          prs = (outcomes.filter (fun o => o.2)).map Prod.fst) ∧
    (∀ fuel tfPlan g prs g', main d color fuel tfPlan g = some (.completed prs, g') →
      ∃ g1, rangeResourceChanges d color fuel tfPlan.ResourceChanges [] g =
          some (.completed prs, g1) ∧
        g'.stdout = g1.stdout ++ report prs ∧
        (report prs).head? = some (if prs.length = 0 then "No changes detected\n"
          else toString prs.length ++ " changes detected:\n\n")) ∧
    (d.jsonValid "5" = true → d.jsonUnmarshal "5" = .ok (.number 5) →
      ∀ (sb sa : String) (nb na : d.Node), d.jsonMarshal (.map (some [])) = .ok sb →
        d.jsonMarshal (.map (some [("x", .number 5)])) = .ok sa →
        d.readJsonString sb = .ok nb → d.readJsonString sa = .ok na →
        ∀ g, ∃ g', main d color 3 { ResourceChanges := [createChange, noopChange] } g =
          some (.completed [createRecord (d.diffRender nb na color)], g')) := by
  refine ⟨fun fuel rcs prs => ⟨?_, ?_⟩, fun fuel tfPlan g prs g' e => ?_, ?_⟩
  · rintro ⟨g, g', e⟩
    obtain ⟨os, hf, hprs⟩ := rangeResourceChanges_sound d color fuel rcs [] g prs g' e
    exact ⟨os, hf, by simpa using hprs⟩
  · rintro ⟨os, hf, rfl⟩
    obtain ⟨g', e⟩ := rangeResourceChanges_complete d color fuel hf [] Globals.initial
    exact ⟨Globals.initial, g', by simpa using e⟩
  · unfold main at e
    cases hl : rangeResourceChanges d color fuel tfPlan.ResourceChanges [] g with
    | none => simp [hl] at e
    | some p =>
      obtain ⟨res, g1⟩ := p
      cases res with
      | panicked =>
        simp only [hl] at e
        have := (Prod.mk.inj (Option.some.inj e)).1
        cases this
      | completed prs' =>
        simp only [hl, Option.some.injEq, Prod.mk.injEq, LoopResult.completed.injEq] at e
        obtain ⟨rfl, rfl⟩ := e
        refine ⟨g1, rfl, rfl, ?_⟩
        unfold report
        split <;> rfl
  · intro hv hu sb sa nb na hmb hma hrb hra g
    have e1 : ∃ g1, processResourceChange d color 3 createChange g =
        some (.returned (createRecord (d.diffRender nb na color)) true, g1) := by
      unfold processResourceChange
      rw [if_neg (by decide)]
      have hb : parseAsJSON d 3 (.map createChange.Change.Before) g =
          some (.map (some []), deferred (enter d (.map none) g)) := rfl
      have ha : ∀ h, parseAsJSON d 3 (.map createChange.Change.After) h =
          some (.map (some [("x", .number 5)]),
            deferred (deferred (deferred (enter d (.number 5) (enter d (.str "5")
              (enter d (.map (some [("x", .str "5")])) h)))))) := by
        intro h
        show parseAsJSON d 3 (.map (some [("x", .str "5")])) h = _
        rw [parseAsJSON_map]
        simp only [Option.getD_some, rangeMap]
        rw [parseAsJSON_str_json d 1 _ _ _ hv hu, parseAsJSON_number]
        rfl
      simp only [hb, ha, hmb, hma, hrb, hra, assertMap]
      exact ⟨_, rfl⟩
    have e2 : ∀ h, processResourceChange d color 3 noopChange h =
        some (.returned ProcessedResource.zero false, h) := by
      intro h
      unfold processResourceChange
      rw [if_pos]
      exact Or.inr rfl
    obtain ⟨g1, e1⟩ := e1
    refine ⟨{ g1 with
      stdout := g1.stdout ++ (report [createRecord (d.diffRender nb na color)]) }, ?_⟩
    unfold main
    simp only [rangeResourceChanges_cons d color 3 _ _ _ _ _ _ _ e1,
      rangeResourceChanges_cons d color 3 _ _ _ _ _ _ _ (e2 _), rangeResourceChanges_nil]
    rfl

/-- Witness of C12: the scenario with the sample libraries: one record, and the report starts
with the count 1. -/
theorem main_filters_in_order_witness :
    (∃ g', main planLibs false 3 { ResourceChanges := [createChange, noopChange] }
      Globals.initial =
        some (.completed
          [createRecord (planLibs.diffRender "\x7b\x7d" "\x7b\"x\":5\x7d" false)], g')) ∧
    (report [createRecord (planLibs.diffRender "\x7b\x7d" "\x7b\"x\":5\x7d" false)]).head? =
      some "1 changes detected:\n\n" :=
  ⟨(main_filters_in_order planLibs false).2.2 rfl rfl "\x7b\x7d" "\x7b\"x\":5\x7d"
    "\x7b\x7d" "\x7b\"x\":5\x7d" rfl rfl rfl rfl Globals.initial, rfl⟩

/-- C13 (per-resource errors are skipped, not fatal): when the serialization of a normalized
state fails, or the diff engine rejects a serialized state, `processResourceChange` returns the
empty record with `present = false`; and the loop of `main` over a batch holding a change that
comes back so ends exactly as it does over the batch without that change. -/
theorem processResourceChange_error_skipped (d : Libs) (color : Bool) (fuel : Nat)
    (rc : ResourceChange) (g g1 g2 : Globals) (vb va : Value)
    (hb : parseAsJSON d fuel (.map rc.Change.Before) g = some (vb, g1))
    (ha : parseAsJSON d fuel (.map rc.Change.After) g1 = some (va, g2))
    (hfail : (∃ e, d.jsonMarshal vb = .error e) ∨ (∃ e, d.jsonMarshal va = .error e) ∨
      (∃ t e, d.jsonMarshal vb = .ok t ∧ d.readJsonString t = .error e) ∨
      (∃ t e, d.jsonMarshal va = .ok t ∧ d.readJsonString t = .error e)) :
    (∃ g', processResourceChange d color fuel rc g =
      some (.returned ProcessedResource.zero false, g')) ∧
    (∀ pre post acc h res,
      (∃ h', rangeResourceChanges d color fuel (pre ++ rc :: post) acc h = some (res, h')) ↔
        (∃ h', rangeResourceChanges d color fuel (pre ++ post) acc h = some (res, h'))) := by
  have h1 : ∃ g', processResourceChange d color fuel rc g =
      some (.returned ProcessedResource.zero false, g') := by
    unfold processResourceChange
    split_ifs with hc
    · exact ⟨g, rfl⟩
    · simp only [hb, ha]
      cases hmb : d.jsonMarshal vb with
      | error e => exact ⟨_, rfl⟩
      | ok beforeB =>
        dsimp only
        cases hma : d.jsonMarshal va with
        | error e => exact ⟨_, rfl⟩
        | ok afterB =>
          dsimp only
          cases hrb : d.readJsonString beforeB with
          | error e => exact ⟨_, rfl⟩
          | ok beforeNode =>
            dsimp only
            cases hra : d.readJsonString afterB with
            | error e => exact ⟨_, rfl⟩
            | ok afterNode =>
              exfalso
              rcases hfail with ⟨e, he⟩ | ⟨e, he⟩ | ⟨t, e, ht, he⟩ | ⟨t, e, ht, he⟩
              · rw [hmb] at he; cases he
              · rw [hma] at he; cases he
              · rw [hmb] at ht; injection ht with ht; subst ht; rw [hrb] at he; cases he
              · rw [hma] at ht; injection ht with ht; subst ht; rw [hra] at he; cases he
  refine ⟨h1, fun pre post acc h res => ?_⟩
  obtain ⟨g', e⟩ := h1
  exact rangeResourceChanges_skip d color fuel rc _
    (fun k => processResourceChange_state d color fuel rc g _ g' e k) post pre acc h res

/-- Witness of C13: the after state of `nanChange` normalizes to a value the serializer rejects;
the change comes back with `present = false`, and the batch with it between the create and the
no-op change ends with the one record of the create change. -/
theorem processResourceChange_error_skipped_witness :
    parseAsJSON planLibs 4 (.map nanChange.Change.After) Globals.initial =
      some (.map (some [("cfg", .map (some [("a", .other 0)]))]), Globals.initial) ∧
    planLibs.jsonMarshal (.map (some [("cfg", .map (some [("a", .other 0)]))])) =
      .error "json: unsupported value" ∧
    (∃ g', processResourceChange planLibs false 4 nanChange Globals.initial =
      some (.returned ProcessedResource.zero false, g')) ∧
    ∃ h', rangeResourceChanges planLibs false 4 ([createChange] ++ nanChange :: [noopChange]) []
      Globals.initial =
        some (.completed
          [createRecord (planLibs.diffRender "\x7b\x7d" "\x7b\"x\":5\x7d" false)], h') :=
  have h := processResourceChange_error_skipped planLibs false 4 nanChange Globals.initial
    Globals.initial Globals.initial (.map (some []))
    (.map (some [("cfg", .map (some [("a", .other 0)]))])) rfl rfl
    (Or.inr (Or.inl ⟨"json: unsupported value", rfl⟩))
  ⟨rfl, rfl, h.1,
    (h.2 [createChange] [noopChange] [] Globals.initial
      (.completed [createRecord (planLibs.diffRender "\x7b\x7d" "\x7b\"x\":5\x7d" false)])).2
      ⟨Globals.initial, rfl⟩⟩

end Tfpdiff
